import Mathlib

/-!
Verification of the clison JSON processor core (`src/lib/json-processor.js`)
against its design specification.

The JavaScript source is shallowly embedded: JSON documents become the
inductive type `Json`, the lodash helpers the processor relies on
(`_.get`, `_.set`, `_.cloneDeep`, `stringToPath`/`castPath`, `_.isObject`,
`_.isArray`, `_.size`) are translated into pure Lean functions, and the
`JSONProcessor` methods `search`, `replace`, `listAllNodes`, together with
the accessor-string normalization done by `evaluate`, are translated on
top of them.

Modelling conventions (each is noted again at the definition it affects):
* JSON numbers are modelled as integers (`Int`); the numeric literals the
  claims exercise are integers and no claim depends on fractional values.
* Strings are compared byte-for-byte; `toLowerCase` is modelled as ASCII
  lowercasing (`Char.toLower`), which agrees with JavaScript on the ASCII
  inputs the claims exercise.
* JavaScript array quirks that cannot be represented by a pure JSON tree
  (expando string properties on arrays, holes created by writing past the
  end, the implicit `length` property) are outside the model; every
  theorem that touches `_.set`/`_.get` on arrays carries a decidable
  side condition (`SetOkB`) confining it to the representable cases.
* Object keys are unique and in insertion order, as produced by
  `JSON.parse`; `_.forEach` iterates them in that order, and for arrays
  it passes the numeric index, which the source immediately stringifies
  (`String(key)`, template interpolation), so the model carries the
  decimal string.
-/

/-- A JSON value as held by the processor after `JSON.parse`:
null, boolean, number (modelled as an integer), string, array, object.
Objects are association lists with unique keys in insertion order. -/
inductive Json where
  | null : Json
  | bool : Bool → Json
  | num : Int → Json
  | str : String → Json
  | arr : List Json → Json
  | obj : List (String × Json) → Json
deriving Repr

namespace Json

/-- lodash `_.isObject`: true for objects and arrays (and functions, which
cannot occur in parsed JSON); false for all primitives, including `null`
and strings. -/
def isObjectJS : Json → Bool
  | arr _ => true
  | obj _ => true
  | _ => false

/-- lodash `_.isArray`. -/
def isArrayJS : Json → Bool
  | arr _ => true
  | _ => false

/-- lodash `_.isString`. -/
def isStringJS : Json → Bool
  | str _ => true
  | _ => false

/-- JavaScript `typeof` applied to a parsed-JSON value. Note the language
quirk: `typeof null` is the string `"object"`. `undefined` cannot occur in
a parsed document, so that branch never arises here. -/
def typeofJS : Json → String
  | null => "object"
  | bool _ => "boolean"
  | num _ => "number"
  | str _ => "string"
  | arr _ => "object"
  | obj _ => "object"

/-- lodash `_.size`: number of own enumerable entries (array length or
object key count); scalars give 0. -/
def sizeJS : Json → Nat
  | arr xs => xs.length
  | obj kvs => kvs.length
  | _ => 0

end Json

/-! ### Character and string utilities

These model the JavaScript string operations the source uses:
`String.prototype.toLowerCase`, `String.prototype.includes`,
`String.prototype.startsWith`, and decimal rendering of array indices. -/

/-- Decide whether `n` is a prefix of `h` (character lists). Models the
prefix step of `String.prototype.includes`. -/
def charsPrefix (needle hay : List Char) : Bool :=
  match needle, hay with
  | [], _ => true
  | _ :: _, [] => false
  | a :: as, b :: bs => if a = b then charsPrefix as bs else false

/-- Decide whether `n` occurs as a contiguous substring of `h`. Models
`h.includes(n)`; the empty needle matches everywhere, as in JavaScript. -/
def charsContains : List Char → List Char → Bool
  | [], n => n.isEmpty
  | b :: bs, n => charsPrefix n (b :: bs) || charsContains bs n

/-- ASCII lowercasing of a string, modelling `toLowerCase` on the ASCII
inputs the tool is exercised with. -/
def lowerStr (s : String) : String :=
  String.mk (s.data.map Char.toLower)

/-- `hay.toLowerCase().includes(needle)` where `needle` is already
lowercased by the caller — the shape used by `search`. -/
def containsStr (hay needle : String) : Bool :=
  charsContains hay.data needle.data

/-- JavaScript `String(n)` / template interpolation of a non-negative
integer: decimal digits, no sign, no leading zeros (except `"0"`). -/
def natToStr (n : Nat) : String :=
  if n = 0 then "0"
  else String.mk ((Nat.digits 10 n).reverse.map Nat.digitChar)

/-- Is `c` a decimal digit? -/
def isDigitCh (c : Char) : Bool :=
  48 ≤ c.toNat && c.toNat ≤ 57

/-- Numeric value of a digit character. -/
def digitVal (c : Char) : Nat := c.toNat - 48

/-- Parse a character list as a canonical decimal index: nonempty, all
digits, no leading zero unless the whole string is `"0"`. This is the
condition under which JavaScript treats a string property name as an
array index (lodash `isIndex` / the canonical-numeric-string rule used
by `arr["0"]`). Returns the index value. -/
def parseIdxChars : List Char → Option Nat
  | [] => none
  | c :: cs =>
    if ¬ isDigitCh c then none
    else if c = '0' ∧ cs ≠ [] then none
    else if cs.all isDigitCh then
      some ((c :: cs).foldl (fun a d => a * 10 + digitVal d) 0)
    else none

/-- String form of `parseIdxChars`. -/
def parseIdx (s : String) : Option Nat :=
  parseIdxChars s.data

/-- lodash `isIndex` on a path segment: the segment is a canonical
non-negative decimal integer (the `reIsUint` test). -/
def isIndexStr (s : String) : Bool :=
  (parseIdx s).isSome

/-! ### lodash path parsing (`stringToPath` / `castPath`)

`_.get` and `_.set` convert a string path to a segment list via
`castPath`: if `isKey(path, object)` holds the whole string is a single
key, otherwise `stringToPath` splits it (on `.` and on `[...]` groups,
with a leading-dot rule and an empty-segment rule for consecutive or
trailing dots, mirroring lodash's `rePropName` regex). Backslash escape
sequences inside quoted bracket groups, and the `[]` lookahead clause of
the regex, are not modelled: no claim exercises them. -/

/-- Characters that terminate a bare path segment. -/
def isPathSpecial (c : Char) : Bool :=
  c = '.' || c = '[' || c = ']'

/-- Longest leading run of non-special characters, with the rest. -/
def takeRun : List Char → List Char × List Char
  | [] => ([], [])
  | c :: cs =>
    if isPathSpecial c then ([], c :: cs)
    else
      let p := takeRun cs
      (c :: p.1, p.2)

theorem takeRun_snd_length (cs : List Char) : (takeRun cs).2.length ≤ cs.length := by
  induction cs with
  | nil => simp [takeRun]
  | cons c cs ih =>
    simp only [takeRun]
    split
    · simp
    · simpa using Nat.le_succ_of_le ih


/-- Scan to the first `]`, failing on an intervening `[`. Returns the
content before the `]` and the remainder after it. -/
def takeToClose : List Char → Option (List Char × List Char)
  | [] => none
  | c :: cs =>
    if c = ']' then some ([], cs)
    else if c = '[' then none
    else (takeToClose cs).map (fun p => (c :: p.1, p.2))

theorem takeToClose_snd_length {cs : List Char} {p : List Char × List Char}
    (h : takeToClose cs = some p) : p.2.length < cs.length := by
  induction cs generalizing p with
  | nil => simp [takeToClose] at h
  | cons c cs ih =>
    simp only [takeToClose] at h
    split at h
    · cases h
      simp
    · split at h
      · cases h
      · rw [Option.map_eq_some'] at h
        obtain ⟨q, hq, hfq⟩ := h
        have := ih hq
        subst hfq
        simpa using Nat.lt_succ_of_lt this

/-- Scan to the first occurrence of the quote character `q`. Returns the
content before the quote and the remainder after it. -/
def takeToQuote (q : Char) : List Char → Option (List Char × List Char)
  | [] => none
  | c :: cs =>
    if c = q then some ([], cs)
    else (takeToQuote q cs).map (fun p => (c :: p.1, p.2))

theorem takeToQuote_snd_length {q : Char} {cs : List Char} {p : List Char × List Char}
    (h : takeToQuote q cs = some p) : p.2.length < cs.length := by
  induction cs generalizing p with
  | nil => simp [takeToQuote] at h
  | cons c cs ih =>
    simp only [takeToQuote] at h
    split at h
    · cases h
      simp
    · rw [Option.map_eq_some'] at h
      obtain ⟨r, hr, hfr⟩ := h
      have := ih hr
      subst hfr
      simpa using Nat.lt_succ_of_lt this

/-- Parse one bracket group given the characters after the opening `[`:
either a quoted segment `['k']` / `["k"]` (escape sequences not modelled)
followed by `]`, or a bare nonempty segment terminated by the first `]`.
Returns the segment and the characters after the closing bracket, or
`none` when the group is malformed (the regex scan then just skips the
opening bracket). -/
def bracketStep (cs : List Char) : Option (List Char × List Char) :=
  match cs with
  | [] => none
  | q :: rest2 =>
    if q = '\'' ∨ q = '"' then
      match takeToQuote q rest2 with
      | some (content, ']' :: rest4) => some (content, rest4)
      | _ => none
    else
      match takeToClose (q :: rest2) with
      | some ([], _) => none
      | some (c :: content, rest3) => some (c :: content, rest3)
      | none => none

theorem bracketStep_snd_length {cs : List Char} {p : List Char × List Char}
    (h : bracketStep cs = some p) : p.2.length ≤ cs.length := by
  cases cs with
  | nil => simp [bracketStep] at h
  | cons q rest2 =>
    simp only [bracketStep] at h
    split at h
    · split at h
      next content rest4 heq =>
        cases h
        have := takeToQuote_snd_length heq
        simp at this ⊢
        omega
      next => cases h
    · split at h
      next => cases h
      next c content rest3 heq =>
        cases h
        have := takeToClose_snd_length heq
        simp at this ⊢
        omega
      next => cases h

/-- Main loop of the `stringToPath` model, with explicit fuel (any fuel
at least the length of the input gives the regex-scan result; callers
pass `length + 1`). Emits bare runs, handles `.` separators (pushing an
empty segment before a second dot or at a trailing dot, as lodash's
empty-lookahead clause does), consumes bracket groups, and skips stray
characters, as the global regex scan does. -/
def stpGo : Nat → List Char → List (List Char)
  | 0, _ => []
  | _ + 1, [] => []
  | fuel + 1, c :: rest =>
    if c = '.' then
      match rest with
      | [] => [[]]
      | c2 :: _ => if c2 = '.' then [] :: stpGo fuel rest else stpGo fuel rest
    else if c = '[' then
      match bracketStep rest with
      | some p => p.1 :: stpGo fuel p.2
      | none => stpGo fuel rest
    else if c = ']' then stpGo fuel rest
    else (c :: (takeRun rest).1) :: stpGo fuel (takeRun rest).2

/-- lodash `stringToPath`: a leading `.` contributes an initial empty
segment; the rest of the string is scanned by `stpGo`. -/
def stringToPath (s : String) : List String :=
  match s.data with
  | '.' :: _ => "" :: (stpGo (s.data.length + 1) s.data).map (fun l => String.mk l)
  | _ => (stpGo (s.data.length + 1) s.data).map (fun l => String.mk l)

example : stringToPath "a.b" = ["a", "b"] := by decide
example : stringToPath "a[0].b" = ["a", "0", "b"] := by decide
example : stringToPath ".a" = ["", "a"] := by decide
example : stringToPath "a..b" = ["a", "", "b"] := by decide
example : stringToPath "a." = ["a", ""] := by decide
example : stringToPath "" = [] := by decide
example : stringToPath "x.a.b" = ["x", "a", "b"] := by decide

/-- Word characters of the regex `\w`: letters, digits, underscore. -/
def isWordChar (c : Char) : Bool :=
  (65 ≤ c.toNat && c.toNat ≤ 90) || (97 ≤ c.toNat && c.toNat ≤ 122) ||
  (48 ≤ c.toNat && c.toNat ≤ 57) || c = '_'

/-- lodash `reIsPlainProp` (`^\w*$`): every character is a word
character; the empty string qualifies. -/
def isPlainProp (s : String) : Bool :=
  s.data.all isWordChar

/-- lodash `reIsDeepProp` (`\.|\[(?:...)\]`): the string contains a `.`
or a matched bracket group (content free of `[`/`]`; the quoted variant
with brackets inside the quotes is not modelled — no claim uses it). -/
def hasDeepMark : List Char → Bool
  | [] => false
  | c :: cs =>
    if c = '.' then true
    else if c = '[' then
      match takeToClose cs with
      | some _ => true
      | none => hasDeepMark cs
    else hasDeepMark cs

/-- JavaScript `key in Object(value)` restricted to parsed-JSON values:
own keys of objects, in-range canonical indices of arrays. Inherited
prototype members (`length`, array methods, boxed-primitive properties)
are outside the model — no claim exercises them. -/
def Json.hasOwnJS : Json → String → Bool
  | Json.obj kvs, s => kvs.any (fun kv => kv.1 = s)
  | Json.arr xs, s =>
    match parseIdx s with
    | some i => i < xs.length
    | none => false
  | _, _ => false

/-- lodash `isKey(value, object)` for a string path: a plain word-only
property name, or a string with no deep-path syntax at all, or a string
that is literally an own property of the object, is used as a single
key without being split. -/
def isKeyJS (s : String) (root : Json) : Bool :=
  isPlainProp s || !hasDeepMark s.data || root.hasOwnJS s

/-- lodash `castPath(value, object)` on a string path. -/
def castPath (s : String) (root : Json) : List String :=
  if isKeyJS s root then [s] else stringToPath s

/-- One property lookup `value[key]` as performed by lodash `baseGet`'s
loop: object key lookup, or canonical-index array access. -/
def childGet : Json → String → Option Json
  | Json.obj kvs, s => (kvs.find? (fun kv => kv.1 = s)).map (fun kv => kv.2)
  | Json.arr xs, s => (parseIdx s).bind (fun i => xs[i]?)
  | _, _ => none

/-- lodash `baseGet`: walk the segments; absence at any step yields
`none` (the JavaScript `undefined`). -/
def getSegs : Json → List String → Option Json
  | j, [] => some j
  | j, s :: rest => (childGet j s).bind (fun c => getSegs c rest)

/-- lodash `_.get(object, path)` with a string path. (`baseGet` on an
empty segment list returns `undefined`, but `castPath` never produces an
empty list: the empty string is a plain property name.) -/
def lodashGet (root : Json) (path : String) : Option Json :=
  getSegs root (castPath path root)

/-- Insert-or-update on an association list, as JavaScript property
assignment behaves on objects: an existing key keeps its position and
gets the new value; a new key is appended at the end. -/
def assocSet : List (String × Json) → String → Json → List (String × Json)
  | [], s, v => [(s, v)]
  | (k, w) :: rest, s, v =>
    if k = s then (k, v) :: rest else (k, w) :: assocSet rest s v

/-- lodash `assignValue(nested, key, value)` on parsed-JSON containers:
object property write, or array write at a canonical index (in range, or
appending at exactly the length). Writes past the end (which create
holes), expando string properties on arrays, and writes to primitives
are outside the model and leave the value unchanged; theorems about
`_.set` carry the `SetOkB` side condition that excludes them. -/
def assignJ : Json → String → Json → Json
  | Json.obj kvs, s, v => Json.obj (assocSet kvs s v)
  | Json.arr xs, s, v =>
    match parseIdx s with
    | some i =>
      if i < xs.length then Json.arr (xs.set i v)
      else if i = xs.length then Json.arr (xs ++ [v])
      else Json.arr xs
    | none => Json.arr xs
  | j, _, _ => j

/-- The fresh container lodash `baseSet` creates when it must descend
through a missing or non-object value: an array if the next segment is
an index, otherwise an object. -/
def freshFor (s2 : String) : Json :=
  if isIndexStr s2 then Json.arr [] else Json.obj []

/-- The container `baseSet` descends into at an intermediate segment
`s`: the existing child if it is an object/array, otherwise a fresh
container chosen by the next segment `s2`. -/
def childFor (j : Json) (s s2 : String) : Json :=
  match childGet j s with
  | some cv => if cv.isObjectJS then cv else freshFor s2
  | none => freshFor s2

/-- lodash `baseSet`'s walk over the segments (the mutation of the
original is rendered as rebuilding with `assignJ` on the way out; the
mutated-reference semantics and the pure rebuild agree on trees). An
empty segment list leaves the value unchanged, as `baseSet`'s loop body
never runs. -/
def setSegs : Json → List String → Json → Json
  | j, [], _ => j
  | j, [s], v => assignJ j s v
  | j, s :: s2 :: rest, v =>
    assignJ j s (setSegs (childFor j s s2) (s2 :: rest) v)

/-- lodash `_.set(object, path, value)` with a string path: a primitive
root is returned unchanged (`baseSet`'s `isObject` guard); otherwise the
segments of `castPath` are walked. -/
def lodashSet (root : Json) (path : String) (v : Json) : Json :=
  if root.isObjectJS then setSegs root (castPath path root) v else root

mutual

/-- lodash `_.cloneDeep` on parsed-JSON values: a structural deep copy.
On a pure tree the copy is equal to the original (`cloneDeep_eq`); it is
kept as a definition because the source calls it to decouple the new
document from the old one. -/
def cloneDeep : Json → Json
  | Json.null => Json.null
  | Json.bool b => Json.bool b
  | Json.num n => Json.num n
  | Json.str s => Json.str s
  | Json.arr xs => Json.arr (cloneDeepList xs)
  | Json.obj kvs => Json.obj (cloneDeepKVs kvs)

/-- Deep copy of an array's elements. -/
def cloneDeepList : List Json → List Json
  | [] => []
  | x :: xs => cloneDeep x :: cloneDeepList xs

/-- Deep copy of an object's entries. -/
def cloneDeepKVs : List (String × Json) → List (String × Json)
  | [] => []
  | (k, w) :: rest => (k, cloneDeep w) :: cloneDeepKVs rest

end

theorem cloneDeepList_eq (xs : List Json) (ih : ∀ x ∈ xs, cloneDeep x = x) :
    cloneDeepList xs = xs := by
  induction xs with
  | nil => rfl
  | cons x xs ihl =>
    rw [cloneDeepList, ih x (by simp), ihl (fun y hy => ih y (by simp [hy]))]

theorem cloneDeepKVs_eq (kvs : List (String × Json))
    (ih : ∀ kv ∈ kvs, cloneDeep kv.2 = kv.2) : cloneDeepKVs kvs = kvs := by
  induction kvs with
  | nil => rfl
  | cons kv rest ihl =>
    obtain ⟨k, w⟩ := kv
    rw [cloneDeepKVs, ih (k, w) (by simp), ihl (fun y hy => ih y (by simp [hy]))]

/-- Structural induction for `Json` with membership hypotheses for the
nested lists (the automatically generated recursor has separate motives
for the list types, which the `induction` tactic cannot use). -/
theorem Json.indMem (P : Json → Prop) (hnull : P Json.null)
    (hbool : ∀ b, P (Json.bool b)) (hnum : ∀ n, P (Json.num n))
    (hstr : ∀ s, P (Json.str s))
    (harr : ∀ xs, (∀ x ∈ xs, P x) → P (Json.arr xs))
    (hobj : ∀ kvs, (∀ kv ∈ kvs, P kv.2) → P (Json.obj kvs)) :
    ∀ j, P j
  | Json.null => hnull
  | Json.bool b => hbool b
  | Json.num n => hnum n
  | Json.str s => hstr s
  | Json.arr xs =>
    harr xs (fun x hx => Json.indMem P hnull hbool hnum hstr harr hobj x)
  | Json.obj kvs =>
    hobj kvs (fun kv hkv => Json.indMem P hnull hbool hnum hstr harr hobj kv.2)
termination_by j => sizeOf j
decreasing_by
  · have := List.sizeOf_lt_of_mem hx
    simp only [Json.arr.sizeOf_spec]
    omega
  · have h1 := List.sizeOf_lt_of_mem hkv
    have h2 : sizeOf kv.2 < sizeOf kv := by
      obtain ⟨k, w⟩ := kv
      simp only [Prod.mk.sizeOf_spec]
      omega
    simp only [Json.obj.sizeOf_spec]
    omega

/-- A deep copy of a pure JSON tree is the tree itself; the independence
it buys in JavaScript (no shared mutable references) is inherent here. -/
theorem cloneDeep_eq (j : Json) : cloneDeep j = j := by
  induction j using Json.indMem with
  | hnull => rfl
  | hbool b => rfl
  | hnum n => rfl
  | hstr s => rfl
  | harr xs ih => rw [cloneDeep, cloneDeepList_eq xs ih]
  | hobj kvs ih => rw [cloneDeep, cloneDeepKVs_eq kvs ih]

mutual

/-- Structural equality test for `Json` (used only to obtain a
kernel-computable `DecidableEq` instance). -/
def beqJson : Json → Json → Bool
  | Json.null, Json.null => true
  | Json.bool a, Json.bool b => a = b
  | Json.num a, Json.num b => a = b
  | Json.str a, Json.str b => a = b
  | Json.arr xs, Json.arr ys => beqList xs ys
  | Json.obj a, Json.obj b => beqKVs a b
  | _, _ => false

/-- Elementwise equality test for arrays. -/
def beqList : List Json → List Json → Bool
  | [], [] => true
  | x :: xs, y :: ys => beqJson x y && beqList xs ys
  | _, _ => false

/-- Entrywise equality test for objects. -/
def beqKVs : List (String × Json) → List (String × Json) → Bool
  | [], [] => true
  | (k1, v1) :: r1, (k2, v2) :: r2 => k1 = k2 && beqJson v1 v2 && beqKVs r1 r2
  | _, _ => false

end

theorem beqList_iff (xs : List Json)
    (ih : ∀ x ∈ xs, ∀ b, beqJson x b = true ↔ x = b) :
    ∀ ys, beqList xs ys = true ↔ xs = ys := by
  induction xs with
  | nil => intro ys; cases ys <;> simp [beqList]
  | cons x xs ihl =>
    intro ys
    cases ys with
    | nil => simp [beqList]
    | cons y ys =>
      simp [beqList, ih x (by simp) y, ihl (fun z hz => ih z (by simp [hz])) ys]

theorem beqKVs_iff (kvs : List (String × Json))
    (ih : ∀ kv ∈ kvs, ∀ b, beqJson kv.2 b = true ↔ kv.2 = b) :
    ∀ other, beqKVs kvs other = true ↔ kvs = other := by
  induction kvs with
  | nil => intro other; cases other <;> simp [beqKVs]
  | cons kv rest ihl =>
    intro other
    obtain ⟨k, v⟩ := kv
    cases other with
    | nil => simp [beqKVs]
    | cons kv2 rest2 =>
      obtain ⟨k2, v2⟩ := kv2
      simp [beqKVs, ih (k, v) (by simp) v2,
        ihl (fun z hz => ih z (by simp [hz])) rest2, and_assoc]

theorem beqJson_iff (a b : Json) : beqJson a b = true ↔ a = b := by
  induction a using Json.indMem generalizing b with
  | hnull => cases b <;> simp [beqJson]
  | hbool x => cases b <;> simp [beqJson]
  | hnum x => cases b <;> simp [beqJson]
  | hstr x => cases b <;> simp [beqJson]
  | harr xs ih =>
    cases b <;> simp [beqJson]
    exact beqList_iff xs (fun x hx => ih x hx) _
  | hobj kvs ih =>
    cases b <;> simp [beqJson]
    exact beqKVs_iff kvs (fun kv hkv => ih kv hkv) _

instance : DecidableEq Json := fun a b => decidable_of_iff _ (beqJson_iff a b)

/-! ### `JSON.parse` model

`replace` coerces its raw replacement value by first attempting strict
JSON parsing. The grammar here is JSON with two documented restrictions:
numbers are integer literals (no fraction/exponent — `Json` carries
`Int`), and `\uXXXX` string escapes are not modelled. Duplicate object
keys (where `JSON.parse` keeps the last) are not reconciled — no claim
exercises any of these. -/

/-- JSON whitespace. -/
def isWsJS (c : Char) : Bool :=
  c = ' ' || c = '\t' || c = '\n' || c = '\r'

/-- Drop leading JSON whitespace. -/
def skipWs (cs : List Char) : List Char :=
  cs.dropWhile isWsJS

/-- The opening-brace character, written via its code point. -/
def lbraceCh : Char := Char.ofNat 123

/-- The closing-brace character, written via its code point. -/
def rbraceCh : Char := Char.ofNat 125

/-- The JSON string escape table: escape letter paired with the escaped
character (`\uXXXX` escapes are outside the model). -/
def escPairs : List (Char × Char) :=
  [('"', '"'), ('\\', '\\'), ('/', '/'), ('n', '\n'), ('t', '\t'), ('r', '\r'),
    ('b', Char.ofNat 8), ('f', Char.ofNat 12)]

/-- Translation of a JSON string escape character via the table. -/
def escCh (e : Char) : Option Char :=
  (escPairs.find? (fun pr => pr.1 = e)).map (fun pr => pr.2)

/-- Parse the body of a JSON string literal, the opening quote already
consumed: content up to the closing quote, processing escapes. Returns
the content and the remainder after the closing quote. -/
def parseJStrChars : List Char → Option (List Char × List Char)
  | [] => none
  | c :: cs =>
    if c = '"' then some ([], cs)
    else if c = '\\' then
      match cs with
      | [] => none
      | e :: cs2 =>
        (escCh e).bind fun ec =>
          (parseJStrChars cs2).map fun p => (ec :: p.1, p.2)
    else (parseJStrChars cs).map fun p => (c :: p.1, p.2)

/-- Parse the digits of a JSON integer literal: nonempty, no leading
zero (except `0` itself), and not followed by a fraction or exponent
marker (fractional numbers are outside the integer model). -/
def parseJNatPart (cs : List Char) : Option (Nat × List Char) :=
  let digs := cs.takeWhile isDigitCh
  let rest := cs.dropWhile isDigitCh
  if digs.isEmpty then none
  else if digs.head? = some '0' ∧ digs.length > 1 then none
  else
    match rest with
    | [] => some (digs.foldl (fun a d => a * 10 + digitVal d) 0, rest)
    | r :: _ =>
      if r = '.' ∨ r = 'e' ∨ r = 'E' then none
      else some (digs.foldl (fun a d => a * 10 + digitVal d) 0, rest)

/-- Parse a JSON number token (integer literals only). -/
def parseJNum : List Char → Option (Json × List Char)
  | [] => none
  | c :: cs =>
    if c = '-' then
      (parseJNatPart cs).map fun p => (Json.num (-(p.1 : Int)), p.2)
    else
      (parseJNatPart (c :: cs)).map fun p => (Json.num (p.1 : Int), p.2)

mutual

/-- Parse one JSON value (leading whitespace allowed), returning it and
the unconsumed remainder. Fuel bounds the recursion; any fuel above the
input length suffices. -/
def parseJVal : Nat → List Char → Option (Json × List Char)
  | 0, _ => none
  | fuel + 1, cs =>
    match skipWs cs with
    | [] => none
    | c :: rest =>
      if c = '"' then
        (parseJStrChars rest).map fun p => (Json.str (String.mk p.1), p.2)
      else if c = lbraceCh then
        match skipWs rest with
        | c2 :: rest2 =>
          if c2 = rbraceCh then some (Json.obj [], rest2)
          else
            (parseJObjMembers fuel (c2 :: rest2)).map fun p => (Json.obj p.1, p.2)
        | [] => none
      else if c = '[' then
        match skipWs rest with
        | c2 :: rest2 =>
          if c2 = ']' then some (Json.arr [], rest2)
          else
            (parseJArrItems fuel (c2 :: rest2)).map fun p => (Json.arr p.1, p.2)
        | [] => none
      else if c = 'n' then
        if charsPrefix ['u', 'l', 'l'] rest then some (Json.null, rest.drop 3) else none
      else if c = 't' then
        if charsPrefix ['r', 'u', 'e'] rest then some (Json.bool true, rest.drop 3) else none
      else if c = 'f' then
        if charsPrefix ['a', 'l', 's', 'e'] rest then some (Json.bool false, rest.drop 4)
        else none
      else parseJNum (c :: rest)

/-- Parse the comma-separated items of a nonempty JSON array, positioned
at the first item; consumes the closing bracket. -/
def parseJArrItems : Nat → List Char → Option (List Json × List Char)
  | 0, _ => none
  | fuel + 1, cs =>
    (parseJVal fuel cs).bind fun p =>
      match skipWs p.2 with
      | ',' :: rest2 => (parseJArrItems fuel rest2).map fun q => (p.1 :: q.1, q.2)
      | ']' :: rest2 => some ([p.1], rest2)
      | _ => none

/-- Parse the comma-separated members of a nonempty JSON object,
positioned at the first key; consumes the closing brace. -/
def parseJObjMembers : Nat → List Char → Option (List (String × Json) × List Char)
  | 0, _ => none
  | fuel + 1, cs =>
    match cs with
    | c :: rest =>
      if c = '"' then
        (parseJStrChars rest).bind fun kp =>
          match skipWs kp.2 with
          | ':' :: rest3 =>
            (parseJVal fuel rest3).bind fun vp =>
              match skipWs vp.2 with
              | ',' :: rest5 =>
                (parseJObjMembers fuel (skipWs rest5)).map fun q =>
                  ((String.mk kp.1, vp.1) :: q.1, q.2)
              | c6 :: rest5 =>
                if c6 = rbraceCh then some ([(String.mk kp.1, vp.1)], rest5) else none
              | [] => none
          | _ => none
      else none
    | [] => none

end

/-- `JSON.parse` on a whole string: one value, surrounded only by
whitespace. -/
def jsonParse (s : String) : Option Json :=
  match parseJVal (s.data.length + 1) s.data with
  | some p => if (skipWs p.2).isEmpty then some p.1 else none
  | none => none

example : jsonParse "42" = some (Json.num 42) := by decide
example : jsonParse "true" = some (Json.bool true) := by decide
example : jsonParse "hello" = none := by decide
example : jsonParse "\x7b\"a\":1\x7d" = some (Json.obj [("a", Json.num 1)]) := by decide
example : jsonParse "[1, 2]" = some (Json.arr [Json.num 1, Json.num 2]) := by decide
example : jsonParse "\"hi\"" = some (Json.str "hi") := by decide
example : jsonParse "-7" = some (Json.num (-7)) := by decide
example : jsonParse "01" = none := by decide
example : jsonParse "" = none := by decide

/-! ### The JSONProcessor operations

Translations of the methods of `class JSONProcessor` in
`src/lib/json-processor.js`. The constructor stores the parsed document
as `this.data`; here every method takes the document as its first
argument. The `llmMode` flag and the console-output helpers perform no
computation on the document and are outside the core model. -/

/-- A search result, as pushed by `search`: the dotted path, the key at
which the match occurred (array indices rendered in decimal, as the
source's `String(key)`/template interpolation does), the value, and the
match type (`"key"` or `"value"`). -/
structure Match where
  path : String
  key : String
  value : Json
  matchType : String
deriving Repr, DecidableEq

/-- The value column of a `listAllNodes` record: composite nodes are
rendered as a `"Object[n]"` / `"Array[n]"` summary string, scalar nodes
keep their literal value. -/
inductive NodeVal where
  | summary : String → NodeVal
  | lit : Json → NodeVal
deriving Repr, DecidableEq

/-- A `listAllNodes` record: dotted path, type tag, and value summary. -/
structure NodeRecord where
  path : String
  type : String
  value : NodeVal
deriving Repr, DecidableEq

/-- The result object of `replace`: the value previously at the path
(`none` renders JavaScript `undefined`), the parsed replacement, the
path, and the new document. -/
structure ReplaceResult where
  original : Option Json
  new : Json
  path : String
  data : Json
deriving Repr, DecidableEq

/-- The `path ? path + "." + key : key` template shared by `search` and
`listAllNodes` for building `currentPath`. -/
def extendPath (path key : String) : String :=
  if path = "" then key else path ++ "." ++ key

/-- Plain `hay.includes(needle)` on strings. -/
def containsSub (hay needle : String) : Bool :=
  charsContains hay.data needle.data

namespace JSONProcessor

/-- The body of the `_.forEach` callback in `search`, minus the
recursion: for one `(key, value)` entry under `path`, the key-match
record (if `String(key).toLowerCase()` contains the query) followed by
the value-match record (if the value is a string whose lowercasing
contains the query). -/
def searchEntry (lowerQuery : String) (path keyStr : String) (value : Json) :
    List Match :=
  let currentPath := extendPath path keyStr
  (if containsSub (lowerStr keyStr) lowerQuery then
    [⟨currentPath, keyStr, value, "key"⟩]
  else []) ++
  (match value with
   | Json.str s =>
     if containsSub (lowerStr s) lowerQuery then
       [⟨currentPath, keyStr, value, "value"⟩]
     else []
   | _ => [])

mutual

/-- The `traverse` closure of `JSONProcessor.search`: objects and arrays
(`_.isObject`) are iterated entry by entry in order; each entry pushes
its match records and is then recursed into. Scalars, including strings,
are not iterated. -/
def searchGo (lowerQuery : String) (j : Json) (path : String) : List Match :=
  match j with
  | Json.arr xs => searchGoArr lowerQuery xs 0 path
  | Json.obj kvs => searchGoObj lowerQuery kvs path
  | _ => []

/-- `_.forEach` over an array inside `search`: the callback receives the
numeric index as the key, which every use stringifies. -/
def searchGoArr (lowerQuery : String) (xs : List Json) (i : Nat) (path : String) :
    List Match :=
  match xs with
  | [] => []
  | x :: rest =>
    searchEntry lowerQuery path (natToStr i) x ++
      searchGo lowerQuery x (extendPath path (natToStr i)) ++
      searchGoArr lowerQuery rest (i + 1) path

/-- `_.forEach` over an object's entries inside `search`. -/
def searchGoObj (lowerQuery : String) (kvs : List (String × Json)) (path : String) :
    List Match :=
  match kvs with
  | [] => []
  | (k, v) :: rest =>
    searchEntry lowerQuery path k v ++
      searchGo lowerQuery v (extendPath path k) ++
      searchGoObj lowerQuery rest path

end

/-- `JSONProcessor.search(query)`: lowercase the query once, then
traverse from the root with an empty path accumulator. -/
def search (root : Json) (query : String) : List Match :=
  searchGo (lowerStr query) root ""

/-- One `listAllNodes` record for the value `v` at `currentPath`: the
type tag is `'array'` for arrays, `'object'` for other lodash objects,
and otherwise JavaScript `typeof`; composite values are summarized as
`"<Kind>[<size>]"`. -/
def nodeRecordOf (currentPath : String) (v : Json) : NodeRecord :=
  { path := currentPath
    type :=
      if v.isArrayJS then "array"
      else if v.isObjectJS then "object"
      else v.typeofJS
    value :=
      if v.isObjectJS then
        NodeVal.summary
          ((if v.isArrayJS then "Array[" else "Object[") ++ natToStr v.sizeJS ++ "]")
      else NodeVal.lit v }

mutual

/-- The `traverse` closure of `JSONProcessor.listAllNodes`: iterate the
entries of objects and arrays; push one record per entry, recursing into
composite values. -/
def listGo (j : Json) (path : String) : List NodeRecord :=
  match j with
  | Json.arr xs => listGoArr xs 0 path
  | Json.obj kvs => listGoObj kvs path
  | _ => []

/-- `_.forEach` over an array inside `listAllNodes`. -/
def listGoArr (xs : List Json) (i : Nat) (path : String) : List NodeRecord :=
  match xs with
  | [] => []
  | x :: rest =>
    nodeRecordOf (extendPath path (natToStr i)) x ::
      (listGo x (extendPath path (natToStr i)) ++ listGoArr rest (i + 1) path)

/-- `_.forEach` over an object's entries inside `listAllNodes`. -/
def listGoObj (kvs : List (String × Json)) (path : String) : List NodeRecord :=
  match kvs with
  | [] => []
  | (k, v) :: rest =>
    nodeRecordOf (extendPath path k) v ::
      (listGo v (extendPath path k) ++ listGoObj rest path)

end

/-- `JSONProcessor.listAllNodes()`. -/
def listAllNodes (root : Json) : List NodeRecord :=
  listGo root ""

/-- `JSONProcessor.replace(path, newValue)`: coerce the raw value by
strict JSON parsing with verbatim-string fallback, deep-copy the
document, set the path in the copy, and report the prior value, the
parsed value, the path, and the new document. -/
def replace (root : Json) (path : String) (newValue : String) : ReplaceResult :=
  let parsedValue :=
    match jsonParse newValue with
    | some j => j
    | none => Json.str newValue
  let newData := lodashSet (cloneDeep root) path parsedValue
  { original := lodashGet root path
    new := parsedValue
    path := path
    data := newData }

/-- JavaScript `s.startsWith(c)` for a single character `c`. -/
def startsWithCh (s : String) (c : Char) : Bool :=
  match s.data with
  | [] => false
  | d :: _ => d = c

/-- The accessor normalization in `JSONProcessor.evaluate`: if the
accessor starts with neither `.` nor `[`, a dot is prepended. -/
def normalizeAccessor (accessor : String) : String :=
  if ¬ startsWithCh accessor '.' ∧ ¬ startsWithCh accessor '[' then
    "." ++ accessor
  else accessor

/-- The code string `evaluate` hands to the sandboxed context:
`result = data` followed by the normalized accessor. -/
def buildCode (accessor : String) : String :=
  "result = data" ++ normalizeAccessor accessor

/-- `evaluate` up to the opaque JavaScript engine: `vm.runInContext` is
abstracted as an arbitrary function `run` of the code string and the
bound document, since the context is built from exactly those two
inputs. Every property of `evaluate` that depends only on the code
string (such as leading-separator normalization) holds for every `run`. -/
def evaluateModel (run : String → Json → Option Json) (root : Json)
    (accessor : String) : Option Json :=
  run (buildCode accessor) root

end JSONProcessor

namespace JSONProcessor

mutual

/-- The traversal skeleton shared verbatim by `search` and
`listAllNodes` (their `traverse` closures differ only in what they push
per entry): every `(currentPath, String(key), value)` entry of every
object/array reached from the start, parent entry before its subtree,
siblings in insertion/index order. -/
def walkGo : Json → String → List (String × String × Json)
  | Json.arr xs, path => walkGoArr xs 0 path
  | Json.obj kvs, path => walkGoObj kvs path
  | _, _ => []

/-- Array part of `walkGo`. -/
def walkGoArr : List Json → Nat → String → List (String × String × Json)
  | [], _, _ => []
  | x :: rest, i, path =>
    (extendPath path (natToStr i), natToStr i, x) ::
      (walkGo x (extendPath path (natToStr i)) ++ walkGoArr rest (i + 1) path)

/-- Object part of `walkGo`. -/
def walkGoObj : List (String × Json) → String → List (String × String × Json)
  | [], _ => []
  | (k, v) :: rest, path =>
    (extendPath path k, k, v) ::
      (walkGo v (extendPath path k) ++ walkGoObj rest path)

end

/-- All `(path, key, value)` entries visited by the processor's
traversals, starting from the root with an empty path accumulator. -/
def walkEntries (root : Json) : List (String × String × Json) :=
  walkGo root ""

/-- The match records `search` emits for a single visited entry, as a
function of the entry triple: a key match when the lowercased key
contains the (lowercased) query, then a value match when the value is a
string whose lowercasing contains the query. -/
def matchesOf (lowerQuery : String) (e : String × String × Json) : List Match :=
  (if containsSub (lowerStr e.2.1) lowerQuery then
    [⟨e.1, e.2.1, e.2.2, "key"⟩]
  else []) ++
  (match e.2.2 with
   | Json.str s =>
     if containsSub (lowerStr s) lowerQuery then
       [⟨e.1, e.2.1, e.2.2, "value"⟩]
     else []
   | _ => [])

theorem searchEntry_eq_matchesOf (q path k : String) (v : Json) :
    searchEntry q path k v = matchesOf q (extendPath path k, k, v) := rfl

mutual

theorem searchGo_eq_walk (q : String) (j : Json) (path : String) :
    searchGo q j path = (walkGo j path).flatMap (matchesOf q) := by
  match j with
  | Json.arr xs =>
    rw [searchGo, walkGo, searchGoArr_eq_walk]
  | Json.obj kvs =>
    rw [searchGo, walkGo, searchGoObj_eq_walk]
  | Json.null => rfl
  | Json.bool b => rfl
  | Json.num n => rfl
  | Json.str s => rfl

theorem searchGoArr_eq_walk (q : String) (xs : List Json) (i : Nat) (path : String) :
    searchGoArr q xs i path = (walkGoArr xs i path).flatMap (matchesOf q) := by
  match xs with
  | [] => rfl
  | x :: rest =>
    rw [searchGoArr, walkGoArr, List.flatMap_cons, List.flatMap_append,
      searchEntry_eq_matchesOf, searchGo_eq_walk, searchGoArr_eq_walk,
      List.append_assoc]

theorem searchGoObj_eq_walk (q : String) (kvs : List (String × Json)) (path : String) :
    searchGoObj q kvs path = (walkGoObj kvs path).flatMap (matchesOf q) := by
  match kvs with
  | [] => rfl
  | (k, v) :: rest =>
    rw [searchGoObj, walkGoObj, List.flatMap_cons, List.flatMap_append,
      searchEntry_eq_matchesOf, searchGo_eq_walk, searchGoObj_eq_walk,
      List.append_assoc]

end

/-- `search` decomposed through the shared walker: one flat pass, with
`matchesOf` applied to every visited entry in traversal order. -/
theorem search_eq_walk (root : Json) (query : String) :
    search root query = (walkEntries root).flatMap (matchesOf (lowerStr query)) :=
  searchGo_eq_walk (lowerStr query) root ""

mutual

theorem listGo_eq_walk (j : Json) (path : String) :
    listGo j path = (walkGo j path).map (fun e => nodeRecordOf e.1 e.2.2) := by
  match j with
  | Json.arr xs => rw [listGo, walkGo, listGoArr_eq_walk]
  | Json.obj kvs => rw [listGo, walkGo, listGoObj_eq_walk]
  | Json.null => rfl
  | Json.bool b => rfl
  | Json.num n => rfl
  | Json.str s => rfl

theorem listGoArr_eq_walk (xs : List Json) (i : Nat) (path : String) :
    listGoArr xs i path = (walkGoArr xs i path).map (fun e => nodeRecordOf e.1 e.2.2) := by
  match xs with
  | [] => rfl
  | x :: rest =>
    rw [listGoArr, walkGoArr, List.map_cons, List.map_append,
      listGo_eq_walk, listGoArr_eq_walk]

theorem listGoObj_eq_walk (kvs : List (String × Json)) (path : String) :
    listGoObj kvs path = (walkGoObj kvs path).map (fun e => nodeRecordOf e.1 e.2.2) := by
  match kvs with
  | [] => rfl
  | (k, v) :: rest =>
    rw [listGoObj, walkGoObj, List.map_cons, List.map_append,
      listGo_eq_walk, listGoObj_eq_walk]

end

/-- `listAllNodes` decomposed through the shared walker: one record per
visited entry, in traversal order. -/
theorem listAllNodes_eq_walk (root : Json) :
    listAllNodes root = (walkEntries root).map (fun e => nodeRecordOf e.1 e.2.2) :=
  listGo_eq_walk root ""

end JSONProcessor

/-! ### Claim theorems -/

/-- C7: for every accessor text that does not begin with `.` or `[`,
`evaluate` prepends a `.` before execution, so the accessor and its
dot-prefixed form produce identical results — for any behaviour `run` of
the underlying engine, since the code string handed to the engine is
identical. -/
theorem claim_C7_evaluate_normalization (run : String → Json → Option Json)
    (root : Json) (a : String)
    (h1 : JSONProcessor.startsWithCh a '.' = false)
    (h2 : JSONProcessor.startsWithCh a '[' = false) :
    JSONProcessor.evaluateModel run root a =
      JSONProcessor.evaluateModel run root ("." ++ a) := by
  obtain ⟨cs⟩ := a
  have hd : ("." ++ String.mk cs).data = '.' :: cs := rfl
  unfold JSONProcessor.evaluateModel JSONProcessor.buildCode
    JSONProcessor.normalizeAccessor
  rw [h1, h2]
  have h3 : JSONProcessor.startsWithCh ("." ++ String.mk cs) '.' = true := by
    simp [JSONProcessor.startsWithCh, hd]
  rw [h3]
  simp

/-- C7 witness: the spec's own example pair, under a concrete engine. -/
theorem claim_C7_evaluate_normalization_witness :
    JSONProcessor.evaluateModel (fun code _ => some (Json.str code)) Json.null
        "users[0].name" =
      JSONProcessor.evaluateModel (fun code _ => some (Json.str code)) Json.null
        ".users[0].name" :=
  claim_C7_evaluate_normalization (fun code _ => some (Json.str code)) Json.null
    "users[0].name" (by decide) (by decide)

/-- C5: `replace` coerces the raw replacement by strict JSON parsing
first, falling back to the verbatim string, and reports the coerced
value in the `new` field; in particular `"42"` becomes the number 42,
`"true"` the boolean, `"{"a":1}"` an object, and `"hello"` stays a
string. -/
theorem claim_C5_replace_value_coercion (root : Json) (p v : String) :
    (JSONProcessor.replace root p v).new = (jsonParse v).getD (Json.str v) ∧
    (JSONProcessor.replace root p "42").new = Json.num 42 ∧
    (JSONProcessor.replace root p "hello").new = Json.str "hello" ∧
    (JSONProcessor.replace root p "true").new = Json.bool true ∧
    (JSONProcessor.replace root p "\x7b\"a\":1\x7d").new =
      Json.obj [("a", Json.num 1)] := by
  refine ⟨?_, rfl, rfl, rfl, rfl⟩
  unfold JSONProcessor.replace
  cases jsonParse v <;> rfl

theorem containsSub_empty (hay : String) : containsSub hay "" = true := by
  show charsContains hay.data [] = true
  cases hay.data with
  | nil => rfl
  | cons b bs => simp [charsContains, charsPrefix]

/-- C6: `search` emits, per visited entry and in traversal order,
exactly the key-match record (iff the lowercased key contains the
lowercased query) followed by the value-match record (iff the value is a
string whose lowercasing contains the query) — so non-string values are
never value-matched, an entry matching both ways yields two records with
the same path/key/value, and the empty query (which every string
contains) matches every key and every string value. -/
theorem claim_C6_search_matching (root : Json) (query : String) :
    (JSONProcessor.search root query =
      (JSONProcessor.walkEntries root).flatMap
        (JSONProcessor.matchesOf (lowerStr query))) ∧
    (∀ lq p k v, JSONProcessor.matchesOf lq (p, k, v) =
      (if containsSub (lowerStr k) lq then [⟨p, k, v, "key"⟩] else []) ++
      (match v with
       | Json.str s =>
         if containsSub (lowerStr s) lq then [⟨p, k, v, "value"⟩] else []
       | _ => [])) ∧
    (∀ lq p k s, containsSub (lowerStr k) lq = true →
      containsSub (lowerStr s) lq = true →
      JSONProcessor.matchesOf lq (p, k, Json.str s) =
        [⟨p, k, Json.str s, "key"⟩, ⟨p, k, Json.str s, "value"⟩]) ∧
    (∀ hay : String, containsSub hay "" = true) := by
  refine ⟨JSONProcessor.search_eq_walk root query, fun lq p k v => rfl,
    fun lq p k s hk hs => ?_, containsSub_empty⟩
  simp [JSONProcessor.matchesOf, hk, hs]

/-- C6 witness: a node whose key and string value both match the query
yields the two records, checked on a concrete document. -/
theorem claim_C6_search_matching_witness :
    JSONProcessor.search (Json.obj [("name", Json.str "Name")]) "nam" =
        [⟨"name", "name", Json.str "Name", "key"⟩,
         ⟨"name", "name", Json.str "Name", "value"⟩] ∧
      containsSub (lowerStr "name") "nam" = true ∧
      containsSub (lowerStr "Name") "nam" = true ∧
      JSONProcessor.matchesOf "nam" ("name", "name", Json.str "Name") =
        [⟨"name", "name", Json.str "Name", "key"⟩,
         ⟨"name", "name", Json.str "Name", "value"⟩] := by
  refine ⟨by decide, by decide, by decide, ?_⟩
  exact (claim_C6_search_matching (Json.obj [("name", Json.str "Name")])
    "nam").2.2.1 "nam" "name" "name" "Name" (by decide) (by decide)

/-! ### Canonical decimal strings

The traversals render array indices with `natToStr` and `_.get`/`_.set`
re-parse them with `parseIdx`; these lemmas establish that the two are
mutually inverse on canonical decimal strings, which also makes
`parseIdx` injective where it succeeds. -/

/-- Decimal value accumulated left-to-right over digit characters. -/
def valChars (cs : List Char) : Nat :=
  cs.foldl (fun a d => a * 10 + digitVal d) 0

theorem digitChar_digitVal {c : Char} (hc : isDigitCh c = true) :
    Nat.digitChar (digitVal c) = c := by
  have hb : 48 ≤ c.toNat ∧ c.toNat ≤ 57 := by
    simpa [isDigitCh] using hc
  obtain ⟨h1, h2⟩ := hb
  have hofnat := Char.ofNat_toNat c
  unfold digitVal
  generalize hg : c.toNat = n at h1 h2
  rw [hg] at hofnat
  interval_cases n <;> rw [← hofnat] <;> rfl

theorem isDigitCh_digitChar {d : Nat} (hd : d < 10) :
    isDigitCh (Nat.digitChar d) = true ∧ digitVal (Nat.digitChar d) = d := by
  interval_cases d <;> exact ⟨rfl, rfl⟩

theorem digitChar_ne_zeroCh {d : Nat} (hd : d < 10) (hnz : d ≠ 0) :
    Nat.digitChar d ≠ '0' := by
  interval_cases d
  · exact absurd rfl hnz
  all_goals decide

theorem digitVal_pos {c : Char} (hc : isDigitCh c = true) (hne : c ≠ '0') :
    0 < digitVal c := by
  have hb : 48 ≤ c.toNat ∧ c.toNat ≤ 57 := by
    simpa [isDigitCh] using hc
  have h48 : c.toNat ≠ 48 := by
    intro h
    exact hne (by rw [← Char.ofNat_toNat c, h])
  unfold digitVal
  omega

theorem foldl_val_ge (cs : List Char) (a : Nat) :
    a ≤ cs.foldl (fun x d => x * 10 + digitVal d) a := by
  induction cs generalizing a with
  | nil => simp
  | cons c cs ih =>
    calc a ≤ a * 10 + digitVal c := by omega
    _ ≤ _ := ih _

theorem valChars_pos {c : Char} {cs : List Char} (hc : isDigitCh c = true)
    (hne : c ≠ '0') : 0 < valChars (c :: cs) := by
  have h1 : 0 < digitVal c := digitVal_pos hc hne
  have h2 := foldl_val_ge cs (digitVal c)
  unfold valChars
  simp only [List.foldl_cons, Nat.zero_mul, Nat.zero_add]
  omega

theorem valChars_append_singleton (cs : List Char) (d : Char) :
    valChars (cs ++ [d]) = valChars cs * 10 + digitVal d := by
  unfold valChars
  rw [List.foldl_append]
  rfl

/-- A canonical digit string is recovered from the decimal digits of its
value. -/
theorem digits_of_valChars (cs : List Char) (hne : cs ≠ [])
    (hdig : ∀ x ∈ cs, isDigitCh x = true) (hhead : cs.head? ≠ some '0') :
    (Nat.digits 10 (valChars cs)).reverse.map Nat.digitChar = cs := by
  induction cs using List.reverseRecOn with
  | nil => exact absurd rfl hne
  | append_singleton cs d ih =>
    have hd : isDigitCh d = true := hdig d (by simp)
    have hdv : digitVal d < 10 := by
      have : 48 ≤ d.toNat ∧ d.toNat ≤ 57 := by simpa [isDigitCh] using hd
      unfold digitVal
      omega
    cases cs with
    | nil =>
      have hdne : d ≠ '0' := by
        intro h
        exact hhead (by simp [h])
      have hpos : 0 < digitVal d := digitVal_pos hd hdne
      have hval : valChars [d] = digitVal d := by
        unfold valChars
        simp
      rw [List.nil_append, hval,
        Nat.digits_def' (by norm_num : (1:Nat) < 10) hpos,
        Nat.mod_eq_of_lt hdv, Nat.div_eq_of_lt hdv]
      simp [digitChar_digitVal hd]
    | cons c cs0 =>
      have hne2 : c :: cs0 ≠ [] := by simp
      have hdig2 : ∀ x ∈ c :: cs0, isDigitCh x = true := by
        intro x hx
        refine hdig x ?_
        simp only [List.cons_append, List.mem_cons, List.mem_append] at hx ⊢
        tauto
      have hhead2 : (c :: cs0).head? ≠ some '0' := by
        simpa using hhead
      have hc : isDigitCh c = true := hdig2 c (by simp)
      have hcne : c ≠ '0' := by
        intro h
        exact hhead2 (by simp [h])
      have hpos : 0 < valChars (c :: cs0) := valChars_pos hc hcne
      have hval := valChars_append_singleton (c :: cs0) d
      have hn : 0 < valChars ((c :: cs0) ++ [d]) := by
        rw [hval]
        omega
      rw [Nat.digits_def' (by norm_num : (1:Nat) < 10) hn, hval]
      have hmod : (valChars (c :: cs0) * 10 + digitVal d) % 10 = digitVal d := by
        omega
      have hdiv : (valChars (c :: cs0) * 10 + digitVal d) / 10 = valChars (c :: cs0) := by
        omega
      rw [hmod, hdiv]
      simp only [List.reverse_cons, List.map_append, List.map_cons, List.map_nil]
      rw [ih hne2 hdig2 hhead2, digitChar_digitVal hd]

theorem parseIdxChars_eq_valChars {c : Char} {cs : List Char}
    (hc : isDigitCh c = true) (hz : ¬(c = '0' ∧ cs ≠ []))
    (hall : cs.all isDigitCh = true) :
    parseIdxChars (c :: cs) = some (valChars (c :: cs)) := by
  simp only [parseIdxChars]
  rw [if_neg (by simp [hc]), if_neg hz, if_pos hall]
  rfl

theorem valChars_map_digits (l : List Nat) (hl : ∀ d ∈ l, d < 10) :
    valChars (l.reverse.map Nat.digitChar) = Nat.ofDigits 10 l := by
  induction l with
  | nil => rfl
  | cons d l ih =>
    have hd : d < 10 := hl d (by simp)
    have hrest : ∀ x ∈ l, x < 10 := fun x hx => hl x (by simp [hx])
    rw [List.reverse_cons, List.map_append, List.map_cons, List.map_nil,
      valChars_append_singleton, ih hrest, Nat.ofDigits_cons,
      (isDigitCh_digitChar hd).2]
    ring

/-- Rendering an index and re-parsing it as a canonical decimal string
round-trips. -/
theorem parseIdx_natToStr (n : Nat) : parseIdx (natToStr n) = some n := by
  by_cases hn : n = 0
  · subst hn
    decide
  · have hds : (Nat.digits 10 n) ≠ [] := Nat.digits_ne_nil_iff_ne_zero.mpr hn
    have hlt : ∀ d ∈ Nat.digits 10 n, d < 10 :=
      fun d hd => Nat.digits_lt_base (by norm_num) hd
    have hmemdig : ∀ x ∈ (Nat.digits 10 n).reverse.map Nat.digitChar,
        isDigitCh x = true := by
      intro x hx
      rw [List.mem_map] at hx
      obtain ⟨d, hd, hdx⟩ := hx
      rw [List.mem_reverse] at hd
      rw [← hdx]
      exact (isDigitCh_digitChar (hlt d hd)).1
    have hval : valChars ((Nat.digits 10 n).reverse.map Nat.digitChar) = n := by
      rw [valChars_map_digits _ hlt, Nat.ofDigits_digits]
    have hhead : ((Nat.digits 10 n).reverse.map Nat.digitChar).head? ≠ some '0' := by
      rw [List.head?_map, List.head?_reverse,
        List.getLast?_eq_getLast _ hds, Option.map_some']
      intro hcon
      rw [Option.some.injEq] at hcon
      exact digitChar_ne_zeroCh (hlt _ (List.getLast_mem hds))
        (Nat.getLast_digit_ne_zero 10 hn) hcon
    have hstr : (natToStr n).data = (Nat.digits 10 n).reverse.map Nat.digitChar := by
      unfold natToStr
      rw [if_neg hn]
    unfold parseIdx
    rw [hstr]
    cases hl : (Nat.digits 10 n).reverse.map Nat.digitChar with
    | nil =>
      exfalso
      apply hds
      have := congrArg List.length hl
      simp at this
      exact this
    | cons c tail =>
      rw [hl] at hmemdig hval hhead
      have hc : isDigitCh c = true := hmemdig c (by simp)
      have hcne : c ≠ '0' := by
        intro h
        exact hhead (by simp [h])
      have hall : tail.all isDigitCh = true := by
        rw [List.all_eq_true]
        intro x hx
        exact hmemdig x (by simp [hx])
      rw [parseIdxChars_eq_valChars hc (by simp [hcne]) hall, hval]

/-- A successful canonical-index parse pins the string down to the
decimal rendering of its value (canonical decimal strings are unique). -/
theorem parseIdxChars_canonical {cs : List Char} {n : Nat}
    (h : parseIdxChars cs = some n) : cs = (natToStr n).data := by
  cases cs with
  | nil => simp [parseIdxChars] at h
  | cons c cs0 =>
    simp only [parseIdxChars] at h
    split_ifs at h with hnd hz hall
    have hcd : isDigitCh c = true := by
      revert hnd
      cases isDigitCh c <;> simp
    rw [Option.some.injEq] at h
    have hvc : valChars (c :: cs0) = n := h
    by_cases hc0 : c = '0'
    · have hcs0 : cs0 = [] := by
        by_contra hne
        exact hz ⟨hc0, hne⟩
      subst hcs0
      subst hc0
      have hn0 : n = 0 := by
        rw [← hvc]
        rfl
      subst hn0
      rfl
    · have hpos : 0 < n := by
        rw [← hvc]
        exact valChars_pos hcd hc0
      have hmem : ∀ x ∈ c :: cs0, isDigitCh x = true := by
        intro x hx
        rw [List.mem_cons] at hx
        cases hx with
        | inl hx2 => rw [hx2]; exact hcd
        | inr hx2 => exact (List.all_eq_true.mp hall) x hx2
      have hhead : (c :: cs0).head? ≠ some '0' := by
        simp [hc0]
      have hrt := digits_of_valChars (c :: cs0) (by simp) hmem hhead
      rw [hvc] at hrt
      unfold natToStr
      rw [if_neg (by omega)]
      exact hrt.symm

/-- `parseIdx` is injective where it succeeds: two strings parsing to
the same index are equal. -/
theorem parseIdx_inj {s t : String} {n : Nat} (hs : parseIdx s = some n)
    (ht : parseIdx t = some n) : s = t := by
  obtain ⟨cs⟩ := s
  obtain ⟨ct⟩ := t
  have h1 := parseIdxChars_canonical hs
  have h2 := parseIdxChars_canonical ht
  simp only at h1 h2
  rw [show cs = (natToStr n).data from h1, show ct = (natToStr n).data from h2]

/-! ### `_.set` correctness machinery

`SetOkB` is the decidable side condition confining `_.set` to inputs a
pure JSON tree can represent (see the module header): object writes are
unrestricted, array writes must target a canonical index at most the
length (in-place update or append), and the walk may pass only through
representable steps. -/

/-- Can `assignValue(j, s, ·)` be represented on the pure tree? -/
def assignOkB : Json → String → Bool
  | Json.obj _, _ => true
  | Json.arr xs, s =>
    match parseIdx s with
    | some i => decide (i ≤ xs.length)
    | none => false
  | _, _ => false

/-- Can `baseSet j segs v` be represented on the pure tree? Requires a
nonempty segment list and a representable assignment at every level. -/
def SetOkB : Json → List String → Bool
  | _, [] => false
  | j, [s] => assignOkB j s
  | j, s :: s2 :: rest => assignOkB j s && SetOkB (childFor j s s2) (s2 :: rest)

theorem assocSet_find_self (kvs : List (String × Json)) (s : String) (v : Json) :
    (assocSet kvs s v).find? (fun kv => kv.1 = s) = some (s, v) := by
  induction kvs with
  | nil => simp [assocSet]
  | cons kv rest ih =>
    obtain ⟨k, w⟩ := kv
    by_cases hk : k = s
    · subst hk
      simp [assocSet]
    · rw [assocSet, if_neg hk, List.find?_cons_of_neg _ (by simp [hk])]
      exact ih

theorem assocSet_find_other (kvs : List (String × Json)) {s t : String} (v : Json)
    (hne : t ≠ s) :
    (assocSet kvs s v).find? (fun kv => kv.1 = t) = kvs.find? (fun kv => kv.1 = t) := by
  induction kvs with
  | nil =>
    rw [assocSet, List.find?_cons_of_neg _ (by simp [Ne.symm hne])]
  | cons kv rest ih =>
    obtain ⟨k, w⟩ := kv
    by_cases hk : k = s
    · subst hk
      rw [assocSet, if_pos rfl, List.find?_cons_of_neg _ (by simp [Ne.symm hne]),
        List.find?_cons_of_neg _ (by simp [Ne.symm hne])]
    · by_cases hkt : k = t
      · rw [assocSet, if_neg hk, List.find?_cons_of_pos _ (by simp [hkt]),
          List.find?_cons_of_pos _ (by simp [hkt])]
      · rw [assocSet, if_neg hk, List.find?_cons_of_neg _ (by simp [hkt]),
          List.find?_cons_of_neg _ (by simp [hkt])]
        exact ih

/-- After a representable assignment, reading the written key back gives
the written value. -/
theorem childGet_assignJ_self {j : Json} {s : String} (v : Json)
    (hok : assignOkB j s = true) : childGet (assignJ j s v) s = some v := by
  cases j with
  | obj kvs =>
    simp only [assignJ, childGet, assocSet_find_self]
    rfl
  | arr xs =>
    simp only [assignOkB] at hok
    cases hpi : parseIdx s with
    | none => rw [hpi] at hok; cases hok
    | some i =>
      rw [hpi] at hok
      have hle : i ≤ xs.length := by simpa using hok
      simp only [assignJ, hpi]
      by_cases hlt : i < xs.length
      · rw [if_pos hlt]
        simp only [childGet, hpi, Option.some_bind]
        rw [List.getElem?_set_self (by simpa using hlt)]
      · have heq : i = xs.length := by omega
        rw [if_neg hlt, if_pos heq]
        simp only [childGet, hpi, Option.some_bind]
        rw [heq, List.getElem?_concat_length]
  | null => simp [assignOkB] at hok
  | bool b => simp [assignOkB] at hok
  | num n => simp [assignOkB] at hok
  | str s2 => simp [assignOkB] at hok

/-- A representable assignment leaves every other key unchanged. -/
theorem childGet_assignJ_other {j : Json} {s t : String} (v : Json)
    (hok : assignOkB j s = true) (hne : t ≠ s) :
    childGet (assignJ j s v) t = childGet j t := by
  cases j with
  | obj kvs =>
    simp only [assignJ, childGet]
    rw [assocSet_find_other kvs v hne]
  | arr xs =>
    simp only [assignOkB] at hok
    cases hpi : parseIdx s with
    | none => rw [hpi] at hok; cases hok
    | some i =>
      rw [hpi] at hok
      have hle : i ≤ xs.length := by simpa using hok
      simp only [assignJ, hpi]
      cases hpt : parseIdx t with
      | none =>
        by_cases hlt : i < xs.length
        · rw [if_pos hlt]; simp [childGet, hpt]
        · by_cases heq : i = xs.length
          · rw [if_neg hlt, if_pos heq]; simp [childGet, hpt]
          · rw [if_neg hlt, if_neg heq]
      | some jt =>
        have hji : jt ≠ i := by
          intro hcon
          subst hcon
          exact hne (parseIdx_inj hpt hpi)
        by_cases hlt : i < xs.length
        · rw [if_pos hlt]
          simp only [childGet, hpt, Option.some_bind]
          rw [List.getElem?_set_ne (Ne.symm hji)]
        · by_cases heq : i = xs.length
          · rw [if_neg hlt, if_pos heq]
            simp only [childGet, hpt, Option.some_bind]
            by_cases hjlt : jt < xs.length
            · rw [List.getElem?_append_left hjlt]
            · rw [List.getElem?_eq_none (l := xs) (by omega),
                List.getElem?_eq_none (by simp; omega)]
          · rw [if_neg hlt, if_neg heq]
  | null => simp [assignOkB] at hok
  | bool b => simp [assignOkB] at hok
  | num n => simp [assignOkB] at hok
  | str s2 => simp [assignOkB] at hok

/-- Reading back the written path after a representable `baseSet` gives
the written value (`_.get(_.set(obj, p, v), p) == v`). -/
theorem getSegs_setSegs_self (v : Json) :
    ∀ (segs : List String) (j : Json), SetOkB j segs = true →
      getSegs (setSegs j segs v) segs = some v
  | [], j, hok => by simp [SetOkB] at hok
  | [s], j, hok => by
    rw [setSegs]
    have hass : assignOkB j s = true := hok
    simp only [getSegs, childGet_assignJ_self v hass, Option.some_bind]
  | s :: s2 :: rest, j, hok => by
    rw [setSegs]
    simp only [SetOkB, Bool.and_eq_true] at hok
    obtain ⟨hass, hrec⟩ := hok
    simp only [getSegs, childGet_assignJ_self _ hass, Option.some_bind]
    exact getSegs_setSegs_self v (s2 :: rest) (childFor j s s2) hrec

theorem childGet_fresh (s2 u : String) : childGet (freshFor s2) u = none := by
  unfold freshFor
  by_cases h : isIndexStr s2 = true
  · rw [if_pos h]
    cases hp : parseIdx u <;> simp [childGet, hp]
  · rw [if_neg h]
    simp [childGet]

/-- A representable `baseSet` changes nothing at any path that is
prefix-incomparable with the written path: the untargeted parts of the
document are untouched. -/
theorem getSegs_setSegs_frame (v : Json) :
    ∀ (segs : List String) (j : Json) (q : List String), SetOkB j segs = true →
      ¬ (segs <+: q) → ¬ (q <+: segs) →
      getSegs (setSegs j segs v) q = getSegs j q
  | [], j, q, hok, _, _ => by simp [SetOkB] at hok
  | [s], j, q, hok, h1, h2 => by
    cases q with
    | nil => exact absurd List.nil_prefix h2
    | cons t q2 =>
      have hts : t ≠ s := by
        intro hcon
        subst hcon
        exact h1 ⟨q2, rfl⟩
      rw [setSegs]
      simp only [getSegs, childGet_assignJ_other v hok hts]
  | s :: s2 :: rest, j, q, hok, h1, h2 => by
    simp only [SetOkB, Bool.and_eq_true] at hok
    obtain ⟨hass, hrec⟩ := hok
    cases q with
    | nil => exact absurd List.nil_prefix h2
    | cons t q2 =>
      rw [setSegs]
      by_cases hts : t = s
      · subst hts
        have h1r : ¬ ((s2 :: rest) <+: q2) := by
          intro hcon
          exact h1 (List.cons_prefix_cons.mpr ⟨rfl, hcon⟩)
        have h2r : ¬ (q2 <+: (s2 :: rest)) := by
          intro hcon
          exact h2 (List.cons_prefix_cons.mpr ⟨rfl, hcon⟩)
        simp only [getSegs, childGet_assignJ_self _ hass, Option.some_bind]
        rw [getSegs_setSegs_frame v (s2 :: rest) (childFor j t s2) q2 hrec h1r h2r]
        cases hcg : childGet j t with
        | some cv =>
          by_cases hobj : cv.isObjectJS = true
          · simp [childFor, hcg, hobj, getSegs]
          · cases q2 with
            | nil => exact absurd ⟨s2 :: rest, rfl⟩ h2
            | cons u q3 =>
              simp only [childFor, hcg, if_neg hobj, getSegs,
                childGet_fresh, Option.none_bind, Option.some_bind]
              cases cv with
              | arr xs => simp [Json.isObjectJS] at hobj
              | obj kvs => simp [Json.isObjectJS] at hobj
              | null => simp [childGet]
              | bool b => simp [childGet]
              | num n => simp [childGet]
              | str st => simp [childGet]
        | none =>
          cases q2 with
          | nil => exact absurd ⟨s2 :: rest, rfl⟩ h2
          | cons u q3 =>
            simp only [childFor, hcg, getSegs, childGet_fresh,
              Option.none_bind]
      · simp only [getSegs, childGet_assignJ_other _ hass hts]

/-- C3 counterexample: on a scalar root document (a legal JSON document,
e.g. the file `42`), `_.set` is a no-op (`baseSet`'s `isObject` guard),
so `result.data` does not contain the replacement at the path: getting
`"a"` from `data` yields `undefined`, not the parsed value `1`. -/
theorem claim_C3_counterexample :
    (JSONProcessor.replace (Json.num 42) "a" "1").new = Json.num 1 ∧
    (JSONProcessor.replace (Json.num 42) "a" "1").data = Json.num 42 ∧
    lodashGet (JSONProcessor.replace (Json.num 42) "a" "1").data "a" = none := by
  decide

/-- C3 amended: for object/array roots, and paths whose representable
walk the `SetOkB` side condition certifies (arrays addressed by
canonical in-range-or-appending indices — the general case, since JSON
array writes past the end or at non-index keys are JavaScript quirks
outside a JSON tree), `replace` is non-destructive: `original` is read
from the untouched input document, the returned `data` holds the parsed
value at the path, and every path prefix-incomparable with the written
one reads the same in `data` as in the original root document. (In this
pure embedding the input tree is immutable, so "root is unchanged" is
inherent; the content is that `data` is a fresh tree — `cloneDeep` —
agreeing with `root` everywhere off the written path.) -/
theorem claim_C3_amended (root : Json) (p v : String)
    (hroot : root.isObjectJS = true)
    (hok : SetOkB root (castPath p root) = true) :
    (JSONProcessor.replace root p v).original = lodashGet root p ∧
    getSegs (JSONProcessor.replace root p v).data (castPath p root) =
      some ((jsonParse v).getD (Json.str v)) ∧
    (∀ q : List String, ¬ (castPath p root <+: q) → ¬ (q <+: castPath p root) →
      getSegs (JSONProcessor.replace root p v).data q = getSegs root q) := by
  have hdata : (JSONProcessor.replace root p v).data =
      setSegs root (castPath p root) ((jsonParse v).getD (Json.str v)) := by
    show lodashSet (cloneDeep root) p _ = _
    rw [cloneDeep_eq]
    unfold lodashSet
    rw [if_pos hroot]
    cases jsonParse v <;> rfl
  refine ⟨rfl, ?_, ?_⟩
  · rw [hdata]
    exact getSegs_setSegs_self _ _ root hok
  · intro q h1 h2
    rw [hdata]
    exact getSegs_setSegs_frame _ _ root q hok h1 h2

/-- C3 amended witness: replacing `a.b` by `42` in a two-level object;
the hypotheses hold and the untouched sibling path `["c"]` is preserved. -/
theorem claim_C3_amended_witness :
    (Json.obj [("a", Json.obj [("b", Json.num 1)]), ("c", Json.str "keep")]).isObjectJS
        = true ∧
      SetOkB (Json.obj [("a", Json.obj [("b", Json.num 1)]), ("c", Json.str "keep")])
        (castPath "a.b"
          (Json.obj [("a", Json.obj [("b", Json.num 1)]), ("c", Json.str "keep")])) =
        true ∧
      getSegs
          (JSONProcessor.replace
            (Json.obj [("a", Json.obj [("b", Json.num 1)]), ("c", Json.str "keep")])
            "a.b" "42").data
          (castPath "a.b"
            (Json.obj [("a", Json.obj [("b", Json.num 1)]), ("c", Json.str "keep")])) =
        some ((jsonParse "42").getD (Json.str "42")) ∧
      getSegs
          (JSONProcessor.replace
            (Json.obj [("a", Json.obj [("b", Json.num 1)]), ("c", Json.str "keep")])
            "a.b" "42").data ["c"] =
        getSegs (Json.obj [("a", Json.obj [("b", Json.num 1)]), ("c", Json.str "keep")])
          ["c"] := by
  have h := claim_C3_amended
    (Json.obj [("a", Json.obj [("b", Json.num 1)]), ("c", Json.str "keep")])
    "a.b" "42" (by decide) (by decide)
  exact ⟨by decide, by decide, h.2.1, h.2.2 ["c"] (by decide) (by decide)⟩

/-- C9: `replace` never fails because the target is absent — the
`original` field is the `undefined`-equivalent `none` when the path does
not resolve, and missing intermediate containers are created, an object
for a non-index next segment and an array for an index next segment
(shown on the creating writes `a.b` and `a.0` into an empty object; the
general creation step is `childFor`/`freshFor`, exercised on every
missing segment). `stringToPath` parses every string (no
`InvalidPathError` exists in the source), so the only-if direction of
the claim is vacuously true. -/
theorem claim_C9_replace_absent_paths (root : Json) (p v : String)
    (habs : lodashGet root p = none) :
    (JSONProcessor.replace root p v).original = none ∧
    (∀ x : Json, setSegs (Json.obj []) ["a", "b"] x =
      Json.obj [("a", Json.obj [("b", x)])]) ∧
    (∀ x : Json, setSegs (Json.obj []) ["a", "0"] x =
      Json.obj [("a", Json.arr [x])]) ∧
    (∀ (j : Json) (s s2 : String), childGet j s = none →
      childFor j s s2 = (if isIndexStr s2 then Json.arr [] else Json.obj [])) := by
  refine ⟨habs, fun x => rfl, fun x => rfl, ?_⟩
  intro j s s2 hnone
  unfold childFor freshFor
  rw [hnone]

/-- C9 witness: replacing at the absent path `a` of the empty object. -/
theorem claim_C9_replace_absent_paths_witness :
    lodashGet (Json.obj []) "a" = none ∧
      (JSONProcessor.replace (Json.obj []) "a" "1").original = none ∧
      setSegs (Json.obj []) ["a", "b"] (Json.num 7) =
        Json.obj [("a", Json.obj [("b", Json.num 7)])] ∧
      setSegs (Json.obj []) ["a", "0"] (Json.num 7) =
        Json.obj [("a", Json.arr [Json.num 7])] := by
  have h := claim_C9_replace_absent_paths (Json.obj []) "a" "1" (by decide)
  exact ⟨by decide, h.1, h.2.1 (Json.num 7), h.2.2.1 (Json.num 7)⟩

/-- C8 counterexample: a node holding JSON `null` is emitted with type
tag `"object"` (JavaScript's `typeof null`), not `"null"`. -/
theorem claim_C8_counterexample :
    JSONProcessor.listAllNodes (Json.obj [("a", Json.null)]) =
      [⟨"a", "object", NodeVal.lit Json.null⟩] ∧ ("object" : String) ≠ "null" := by
  decide

/-- C8 amended: every `listAllNodes` record tags arrays `'array'`,
non-array objects `'object'`, and scalars with their JavaScript
`typeof` — which maps strings/numbers/booleans to the expected tags but
maps `null` to `'object'` (the `typeof null` quirk); the tags `'null'`
and `'undefined'` never occur. -/
theorem claim_C8_amended_type_tags (root : Json) (r : NodeRecord)
    (hr : r ∈ JSONProcessor.listAllNodes root) :
    ∃ e ∈ JSONProcessor.walkEntries root,
      r = JSONProcessor.nodeRecordOf e.1 e.2.2 ∧
      (r.type = "array" ↔ ∃ xs, e.2.2 = Json.arr xs) ∧
      (r.type = "object" ↔ ((∃ kvs, e.2.2 = Json.obj kvs) ∨ e.2.2 = Json.null)) ∧
      (r.type = "string" ↔ ∃ s, e.2.2 = Json.str s) ∧
      (r.type = "number" ↔ ∃ n, e.2.2 = Json.num n) ∧
      (r.type = "boolean" ↔ ∃ b, e.2.2 = Json.bool b) ∧
      r.type ≠ "null" ∧ r.type ≠ "undefined" := by
  rw [JSONProcessor.listAllNodes_eq_walk] at hr
  rw [List.mem_map] at hr
  obtain ⟨e, he, heq⟩ := hr
  refine ⟨e, he, heq.symm, ?_⟩
  obtain ⟨p, k, val⟩ := e
  subst heq
  cases val <;>
    simp [JSONProcessor.nodeRecordOf, Json.typeofJS, Json.isArrayJS,
      Json.isObjectJS]

/-- C8 amended witness: the `null`-valued node of `{"a": null}` is
tagged `"object"`, satisfying the amended characterization. -/
theorem claim_C8_amended_type_tags_witness :
    (⟨"a", "object", NodeVal.lit Json.null⟩ : NodeRecord) ∈
        JSONProcessor.listAllNodes (Json.obj [("a", Json.null)]) ∧
      ∃ e ∈ JSONProcessor.walkEntries (Json.obj [("a", Json.null)]),
        (⟨"a", "object", NodeVal.lit Json.null⟩ : NodeRecord) =
          JSONProcessor.nodeRecordOf e.1 e.2.2 ∧
        ((⟨"a", "object", NodeVal.lit Json.null⟩ : NodeRecord).type = "array" ↔
          ∃ xs, e.2.2 = Json.arr xs) ∧
        ((⟨"a", "object", NodeVal.lit Json.null⟩ : NodeRecord).type = "object" ↔
          ((∃ kvs, e.2.2 = Json.obj kvs) ∨ e.2.2 = Json.null)) ∧
        ((⟨"a", "object", NodeVal.lit Json.null⟩ : NodeRecord).type = "string" ↔
          ∃ s, e.2.2 = Json.str s) ∧
        ((⟨"a", "object", NodeVal.lit Json.null⟩ : NodeRecord).type = "number" ↔
          ∃ n, e.2.2 = Json.num n) ∧
        ((⟨"a", "object", NodeVal.lit Json.null⟩ : NodeRecord).type = "boolean" ↔
          ∃ b, e.2.2 = Json.bool b) ∧
        (⟨"a", "object", NodeVal.lit Json.null⟩ : NodeRecord).type ≠ "null" ∧
        (⟨"a", "object", NodeVal.lit Json.null⟩ : NodeRecord).type ≠ "undefined" :=
  ⟨by decide,
    claim_C8_amended_type_tags (Json.obj [("a", Json.null)])
      ⟨"a", "object", NodeVal.lit Json.null⟩ (by decide)⟩

/-- C10 counterexample: an object key containing a dot produces the
emitted path `x.a.b` for the document `{"x":{"a.b":5}}` (search with the
empty query emits its key record), but `_.get` splits that path into
`["x","a","b"]`, which does not resolve: the emitted path does not lead
back to the entry's value. -/
theorem claim_C10_counterexample :
    (⟨"x.a.b", "a.b", Json.num 5, "key"⟩ : Match) ∈
        JSONProcessor.search (Json.obj [("x", Json.obj [("a.b", Json.num 5)])]) "" ∧
      lodashGet (Json.obj [("x", Json.obj [("a.b", Json.num 5)])]) "x.a.b" = none := by
  decide

/-- A key is path-clean: nonempty and free of the path metacharacters
`.`, `[`, `]` that `stringToPath` splits on. -/
def cleanKeyB (s : String) : Bool :=
  (¬ s.data.isEmpty) && s.data.all (fun c => ¬ isPathSpecial c)

/-- No key of the later entries repeats the head key (object keys of a
`JSON.parse` document are unique). -/
def nodupKeysB : List (String × Json) → Bool
  | [] => true
  | (k, _) :: rest => (¬ rest.any (fun kv => kv.1 = k)) && nodupKeysB rest

mutual

/-- Well-keyed document: every object has unique, path-clean keys, at
every depth. (`JSON.parse` guarantees uniqueness; cleanliness is the
amended claim's side condition.) -/
def wellKeyed : Json → Bool
  | Json.arr xs => wellKeyedList xs
  | Json.obj kvs => nodupKeysB kvs && wellKeyedKVs kvs
  | _ => true

/-- Array part of `wellKeyed`. -/
def wellKeyedList : List Json → Bool
  | [] => true
  | x :: xs => wellKeyed x && wellKeyedList xs

/-- Object part of `wellKeyed`: clean key and well-keyed value per
entry. -/
def wellKeyedKVs : List (String × Json) → Bool
  | [] => true
  | (k, v) :: rest => cleanKeyB k && wellKeyed v && wellKeyedKVs rest

end

/-- The dotted rendering of a segment list (`a.b.c`), as built up by the
traversals' `path + "." + key` template. -/
def joinDot : List String → String
  | [] => ""
  | [s] => s
  | s :: rest => s ++ "." ++ joinDot rest

theorem natToStr_ne_empty (n : Nat) : (natToStr n).data ≠ [] := by
  unfold natToStr
  by_cases h : n = 0
  · rw [if_pos h]
    simp
  · rw [if_neg h]
    intro hcon
    simp only at hcon
    rw [List.map_eq_nil, List.reverse_eq_nil_iff] at hcon
    exact Nat.digits_ne_nil_iff_ne_zero.mpr h hcon

theorem isPathSpecial_of_digit {c : Char} (h : isDigitCh c = true) :
    isPathSpecial c = false := by
  have hb : 48 ≤ c.toNat ∧ c.toNat ≤ 57 := by simpa [isDigitCh] using h
  have h46 : c ≠ '.' := by
    intro hcon
    subst hcon
    simp at hb
  have h91 : c ≠ '[' := by
    intro hcon
    subst hcon
    simp at hb
  have h93 : c ≠ ']' := by
    intro hcon
    subst hcon
    simp at hb
  simp [isPathSpecial, h46, h91, h93]

theorem natToStr_all_digits (n : Nat) : ∀ c ∈ (natToStr n).data, isDigitCh c = true := by
  unfold natToStr
  by_cases h : n = 0
  · rw [if_pos h]
    intro c hc
    simp at hc
    subst hc
    decide
  · rw [if_neg h]
    intro c hc
    simp only [List.mem_map, List.mem_reverse] at hc
    obtain ⟨d, hd, hdc⟩ := hc
    rw [← hdc]
    exact (isDigitCh_digitChar (Nat.digits_lt_base (by norm_num) hd)).1

/-- Decimal index renderings are path-clean keys. -/
theorem cleanKeyB_natToStr (n : Nat) : cleanKeyB (natToStr n) = true := by
  unfold cleanKeyB
  rw [Bool.and_eq_true]
  constructor
  · simp [natToStr_ne_empty n]
  · rw [List.all_eq_true]
    intro c hc
    simp [isPathSpecial_of_digit (natToStr_all_digits n c hc)]

theorem isPathSpecial_false_iff (c : Char) :
    isPathSpecial c = false ↔ (c ≠ '.' ∧ c ≠ '[' ∧ c ≠ ']') := by
  simp [isPathSpecial, and_assoc]

theorem cleanKey_data_ne {s : String} (h : cleanKeyB s = true) : s.data ≠ [] := by
  unfold cleanKeyB at h
  rw [Bool.and_eq_true] at h
  simpa using h.1

theorem cleanKey_chars {s : String} (h : cleanKeyB s = true) :
    ∀ c ∈ s.data, isPathSpecial c = false := by
  unfold cleanKeyB at h
  rw [Bool.and_eq_true] at h
  intro c hc
  have := (List.all_eq_true.mp h.2) c hc
  simpa using this

theorem joinDot_data_cons (s : String) (s2 : String) (rest : List String) :
    (joinDot (s :: s2 :: rest)).data = s.data ++ '.' :: (joinDot (s2 :: rest)).data := by
  show (s ++ "." ++ joinDot (s2 :: rest)).data = _
  rw [String.data_append, String.data_append,
    show (".".data = ['.']) from by decide, List.append_assoc]
  rfl

theorem joinDot_head (s : String) (rest : List String) (hs : cleanKeyB s = true) :
    ∃ c jr, (joinDot (s :: rest)).data = c :: jr ∧ isPathSpecial c = false := by
  obtain ⟨c, sc, hdata⟩ : ∃ c sc, s.data = c :: sc := by
    cases hd : s.data with
    | nil => exact absurd hd (cleanKey_data_ne hs)
    | cons c sc => exact ⟨c, sc, rfl⟩
  have hc : isPathSpecial c = false := cleanKey_chars hs c (by rw [hdata]; simp)
  cases rest with
  | nil => exact ⟨c, sc, by simpa [joinDot] using hdata, hc⟩
  | cons s2 rest2 =>
    refine ⟨c, sc ++ '.' :: (joinDot (s2 :: rest2)).data, ?_, hc⟩
    rw [joinDot_data_cons, hdata]
    rfl

theorem joinDot_ne_empty (segs : List String) (hne : segs ≠ [])
    (hclean : ∀ s ∈ segs, cleanKeyB s = true) : joinDot segs ≠ "" := by
  cases segs with
  | nil => exact absurd rfl hne
  | cons s rest =>
    obtain ⟨c, jr, hdata, _⟩ := joinDot_head s rest (hclean s (by simp))
    intro hcon
    rw [hcon] at hdata
    cases hdata

theorem joinDot_append_ne (xs : List String) (k : String) (hne : xs ≠ []) :
    joinDot (xs ++ [k]) = joinDot xs ++ "." ++ k := by
  induction xs with
  | nil => exact absurd rfl hne
  | cons x rest ih =>
    cases rest with
    | nil => rfl
    | cons y rest2 =>
      show joinDot (x :: ((y :: rest2) ++ [k])) = _
      have h1 : joinDot (x :: ((y :: rest2) ++ [k])) =
          x ++ "." ++ joinDot ((y :: rest2) ++ [k]) := rfl
      have h2 : joinDot (x :: y :: rest2) = x ++ "." ++ joinDot (y :: rest2) := rfl
      rw [h1, ih (by simp), h2]
      simp [String.append_assoc]

/-- `currentPath` accumulation is dotted-join: extending the rendered
prefix by one key renders the extended segment list. -/
theorem joinDot_extendPath (xs : List String) (k : String)
    (hclean : ∀ s ∈ xs, cleanKeyB s = true) :
    joinDot (xs ++ [k]) = extendPath (joinDot xs) k := by
  cases hxs : xs with
  | nil => simp [joinDot, extendPath]
  | cons x rest =>
    rw [← hxs, joinDot_append_ne xs k (by rw [hxs]; simp), extendPath,
      if_neg (joinDot_ne_empty xs (by rw [hxs]; simp) hclean)]

theorem takeRun_clean_append (sc rest : List Char)
    (hclean : ∀ c ∈ sc, isPathSpecial c = false) :
    takeRun (sc ++ rest) = (sc ++ (takeRun rest).1, (takeRun rest).2) := by
  induction sc with
  | nil => simp
  | cons c sc2 ih =>
    have hc : isPathSpecial c = false := hclean c (by simp)
    rw [List.cons_append, takeRun]
    rw [if_neg (by simp [hc])]
    rw [ih (fun x hx => hclean x (by simp [hx]))]
    rfl

theorem stpGo_nil_fuel (fuel : Nat) : stpGo fuel [] = [] := by
  cases fuel <;> rfl

/-- On the dotted join of clean segments, the path scan recovers exactly
the segments, given enough fuel. -/
theorem stpGo_joinDot :
    ∀ (segs : List String) (fuel : Nat), segs ≠ [] →
      (∀ s ∈ segs, cleanKeyB s = true) →
      (joinDot segs).data.length + 1 ≤ fuel →
      stpGo fuel (joinDot segs).data = segs.map String.data
  | [], _, hne, _, _ => absurd rfl hne
  | [s], fuel, _, hclean, hfuel => by
    have hs := hclean s (by simp)
    obtain ⟨c, sc, hdata⟩ : ∃ c sc, s.data = c :: sc := by
      cases hd : s.data with
      | nil => exact absurd hd (cleanKey_data_ne hs)
      | cons c sc => exact ⟨c, sc, rfl⟩
    have hj : (joinDot [s]).data = c :: sc := hdata
    rw [hj] at hfuel ⊢
    obtain ⟨g, rfl⟩ : ∃ g, fuel = g + 1 := ⟨fuel - 1, by omega⟩
    have hcchars : ∀ x ∈ c :: sc, isPathSpecial x = false := by
      intro x hx
      refine cleanKey_chars hs x ?_
      rw [hdata]
      exact hx
    have hcspec := (isPathSpecial_false_iff c).mp (hcchars c (by simp))
    simp only [stpGo]
    rw [if_neg hcspec.1, if_neg hcspec.2.1, if_neg hcspec.2.2]
    have htr : takeRun sc = (sc, []) := by
      have := takeRun_clean_append sc [] (fun x hx => hcchars x (by simp [hx]))
      simpa [takeRun] using this
    rw [htr]
    simp [stpGo_nil_fuel, hdata]
  | s1 :: s2 :: rest2, fuel, _, hclean, hfuel => by
    have hs1 := hclean s1 (by simp)
    obtain ⟨c, sc, hdata⟩ : ∃ c sc, s1.data = c :: sc := by
      cases hd : s1.data with
      | nil => exact absurd hd (cleanKey_data_ne hs1)
      | cons c sc => exact ⟨c, sc, rfl⟩
    have hj := joinDot_data_cons s1 s2 rest2
    rw [hdata] at hj
    rw [hj] at hfuel ⊢
    obtain ⟨g, rfl⟩ : ∃ g, fuel = g + 1 := ⟨fuel - 1, by omega⟩
    have hcchars : ∀ x ∈ c :: sc, isPathSpecial x = false := by
      intro x hx
      refine cleanKey_chars hs1 x ?_
      rw [hdata]
      exact hx
    have hcspec := (isPathSpecial_false_iff c).mp (hcchars c (by simp))
    rw [List.cons_append]
    simp only [stpGo]
    rw [if_neg hcspec.1, if_neg hcspec.2.1, if_neg hcspec.2.2]
    have htr : takeRun (sc ++ '.' :: (joinDot (s2 :: rest2)).data) =
        (sc, '.' :: (joinDot (s2 :: rest2)).data) := by
      have h1 := takeRun_clean_append sc ('.' :: (joinDot (s2 :: rest2)).data)
        (fun x hx => hcchars x (by simp [hx]))
      rw [h1]
      have h2 : takeRun ('.' :: (joinDot (s2 :: rest2)).data) =
          ([], '.' :: (joinDot (s2 :: rest2)).data) := by
        rw [takeRun, if_pos (by simp [isPathSpecial])]
      rw [h2]
      simp
    rw [htr]
    obtain ⟨c2, jr2, hj2, hc2spec⟩ := joinDot_head s2 rest2 (hclean s2 (by simp))
    have hL : (c :: sc ++ '.' :: (joinDot (s2 :: rest2)).data).length =
        sc.length + (joinDot (s2 :: rest2)).data.length + 2 := by
      simp only [List.length_cons, List.length_append]
      omega
    rw [hL] at hfuel
    have hlen : (joinDot (s2 :: rest2)).data.length + 1 ≤ g := by omega
    obtain ⟨g2, rfl⟩ : ∃ g2, g = g2 + 1 := ⟨g - 1, by omega⟩
    rw [hj2]
    simp only [stpGo, eq_self_iff_true, if_true]
    rw [if_neg ((isPathSpecial_false_iff c2).mp hc2spec).1, ← hj2,
      stpGo_joinDot (s2 :: rest2) g2 (by simp)
        (fun x hx => hclean x (by simp [hx])) (by omega)]
    simp [hdata]

/-- `stringToPath` recovers the segments of a dotted join of clean
segments: the emitted-path syntax and the path parser agree. -/
theorem stringToPath_joinDot (segs : List String) (hne : segs ≠ [])
    (hclean : ∀ s ∈ segs, cleanKeyB s = true) :
    stringToPath (joinDot segs) = segs := by
  obtain ⟨s, rest, rfl⟩ : ∃ s rest, segs = s :: rest := by
    cases segs with
    | nil => exact absurd rfl hne
    | cons s rest => exact ⟨s, rest, rfl⟩
  obtain ⟨c, jr, hdata, hcspec⟩ := joinDot_head s rest (hclean s (by simp))
  have hnotdot : c ≠ '.' := ((isPathSpecial_false_iff c).mp hcspec).1
  have hcore : stpGo ((joinDot (s :: rest)).data.length + 1)
      (joinDot (s :: rest)).data = (s :: rest).map String.data :=
    stpGo_joinDot (s :: rest) _ (by simp) hclean (by omega)
  simp only [stringToPath]
  rw [hdata] at hcore ⊢
  split
  · next heq =>
    exfalso
    rw [List.cons.injEq] at heq
    exact hnotdot heq.1
  · rw [hcore, List.map_map]
    have hid : (fun l => String.mk l) ∘ String.data = id := funext (fun x => rfl)
    rw [hid, List.map_id]

theorem hasDeepMark_of_dot : ∀ (cs : List Char), '.' ∈ cs → hasDeepMark cs = true
  | [], h => absurd h (by simp)
  | c :: cs, h => by
    rw [hasDeepMark]
    by_cases hc : c = '.'
    · rw [if_pos hc]
    · rw [if_neg hc]
      have hmem : '.' ∈ cs := by
        rcases List.mem_cons.mp h with h1 | h1
        · exact absurd h1.symm hc
        · exact h1
      by_cases hb : c = '['
      · rw [if_pos hb]
        cases htc : takeToClose cs with
        | some p => rfl
        | none => exact hasDeepMark_of_dot cs hmem
      · rw [if_neg hb]
        exact hasDeepMark_of_dot cs hmem

theorem hasDeepMark_clean : ∀ (cs : List Char),
    (∀ c ∈ cs, isPathSpecial c = false) → hasDeepMark cs = false
  | [], _ => rfl
  | c :: cs, h => by
    have hc := (isPathSpecial_false_iff c).mp (h c (by simp))
    rw [hasDeepMark, if_neg hc.1, if_neg hc.2.1]
    exact hasDeepMark_clean cs (fun x hx => h x (by simp [hx]))

theorem isPlainProp_dot_false {s : String} (h : '.' ∈ s.data) :
    isPlainProp s = false := by
  unfold isPlainProp
  rw [List.all_eq_false]
  exact ⟨'.', h, by decide⟩

theorem parseIdxChars_dot_none : ∀ (cs : List Char), '.' ∈ cs →
    parseIdxChars cs = none
  | [], h => absurd h (by simp)
  | c :: cs, h => by
    simp only [parseIdxChars]
    by_cases hc : c = '.'
    · rw [if_pos (by subst hc; decide)]
    · have hmem : '.' ∈ cs := by
        rcases List.mem_cons.mp h with h1 | h1
        · exact absurd h1.symm hc
        · exact h1
      have hall : cs.all isDigitCh = false := by
        rw [List.all_eq_false]
        exact ⟨'.', hmem, by decide⟩
      by_cases hd : isDigitCh c = true
      · rw [if_neg (by simp [hd])]
        by_cases hz : c = '0' ∧ cs ≠ []
        · rw [if_pos hz]
        · rw [if_neg hz, if_neg (by simp [hall])]
      · rw [if_pos (by simpa using hd)]

theorem hasOwnJS_dotted_false (root : Json) (hwk : wellKeyed root = true)
    (path : String) (hdot : '.' ∈ path.data) : root.hasOwnJS path = false := by
  cases root with
  | obj kvs =>
    show kvs.any (fun kv => kv.1 = path) = false
    rw [List.any_eq_false]
    intro kv hkv
    simp only [decide_eq_true_eq]
    intro hcon
    have hck : cleanKeyB kv.1 = true := by
      have hw : wellKeyedKVs kvs = true := by
        have : wellKeyed (Json.obj kvs) = true := hwk
        rw [wellKeyed, Bool.and_eq_true] at this
        exact this.2
      clear hwk hdot hcon
      induction kvs with
      | nil => exact absurd hkv (by simp)
      | cons kv2 rest ih =>
        obtain ⟨k2, v2⟩ := kv2
        rw [wellKeyedKVs, Bool.and_eq_true, Bool.and_eq_true] at hw
        rcases List.mem_cons.mp hkv with h1 | h1
        · subst h1
          exact hw.1.1
        · exact ih h1 hw.2
    have := cleanKey_chars hck '.' (by rw [hcon]; exact hdot)
    simp [isPathSpecial] at this
  | arr xs =>
    show (match parseIdx path with
      | some i => decide (i < xs.length)
      | none => false) = false
    rw [show parseIdx path = none from parseIdxChars_dot_none path.data hdot]
  | null => rfl
  | bool b => rfl
  | num n => rfl
  | str s => rfl

/-- A single clean key is treated as one key by `castPath` (no deep-path
syntax). -/
theorem castPath_single_clean (k : String) (root : Json) (hk : cleanKeyB k = true) :
    castPath k root = [k] := by
  unfold castPath isKeyJS
  rw [hasDeepMark_clean k.data (cleanKey_chars hk)]
  simp

/-- A dotted join of two or more clean segments is split by `castPath`
into exactly those segments, for a well-keyed document (the path cannot
collide with a literal own property, whose keys are clean). -/
theorem castPath_joinDot_multi (s1 s2 : String) (rest : List String) (root : Json)
    (hwk : wellKeyed root = true)
    (hclean : ∀ s ∈ s1 :: s2 :: rest, cleanKeyB s = true) :
    castPath (joinDot (s1 :: s2 :: rest)) root = s1 :: s2 :: rest := by
  have hdot : '.' ∈ (joinDot (s1 :: s2 :: rest)).data := by
    rw [joinDot_data_cons]
    simp
  unfold castPath isKeyJS
  rw [isPlainProp_dot_false hdot, hasDeepMark_of_dot _ hdot,
    hasOwnJS_dotted_false root hwk _ hdot]
  simp only [Bool.false_or, Bool.not_true, Bool.or_false]
  rw [if_neg (by simp)]
  exact stringToPath_joinDot _ (by simp) hclean

theorem find?_nodup_keys {kvs : List (String × Json)} {k : String} {v : Json}
    (hnd : nodupKeysB kvs = true) (hmem : (k, v) ∈ kvs) :
    kvs.find? (fun kv => kv.1 = k) = some (k, v) := by
  induction kvs with
  | nil => exact absurd hmem (by simp)
  | cons kv2 rest ih =>
    obtain ⟨k2, v2⟩ := kv2
    rw [nodupKeysB, Bool.and_eq_true] at hnd
    rcases List.mem_cons.mp hmem with h1 | h1
    · rw [← h1]
      exact List.find?_cons_of_pos _ (by simp)
    · have hk2 : k2 ≠ k := by
        intro hcon
        subst hcon
        have hany := hnd.1
        rw [decide_eq_true_eq] at hany
        exact hany (List.any_eq_true.mpr ⟨(k2, v), h1, by simp⟩)
      rw [List.find?_cons_of_neg _ (by simp [hk2])]
      exact ih hnd.2 h1

namespace JSONProcessor

mutual

/-- Every entry `walkGo` emits from a well-keyed subtree located at the
clean segment prefix `segsPre` of `root` has a path that is the dotted
join of a nonempty clean segment list resolving (via `getSegs`) to the
entry's value in `root`. -/
theorem walkGo_resolve (root : Json) :
    ∀ (j : Json) (segsPre : List String),
      wellKeyed j = true →
      (∀ s ∈ segsPre, cleanKeyB s = true) →
      (∀ suffix, getSegs root (segsPre ++ suffix) = getSegs j suffix) →
      ∀ e ∈ walkGo j (joinDot segsPre),
        ∃ segs, e.1 = joinDot segs ∧ segs ≠ [] ∧
          (∀ s ∈ segs, cleanKeyB s = true) ∧ getSegs root segs = some e.2.2
  | Json.arr xs, segsPre, hwk, hpre, hloc, e, he => by
    refine walkGoArr_resolve root xs 0 segsPre (Json.arr xs) hwk hpre hloc
      ?_ e (by rw [walkGo] at he; exact he)
    intro m x hmx
    show childGet (Json.arr xs) (natToStr (0 + m)) = some x
    rw [Nat.zero_add]
    show (parseIdx (natToStr m)).bind (fun i => xs[i]?) = some x
    rw [parseIdx_natToStr, Option.some_bind, hmx]
  | Json.obj kvs, segsPre, hwk, hpre, hloc, e, he => by
    rw [wellKeyed, Bool.and_eq_true] at hwk
    refine walkGoObj_resolve root kvs segsPre (Json.obj kvs) hwk.2 hpre hloc
      ?_ e (by rw [walkGo] at he; exact he)
    intro k v hkv
    show ((kvs.find? (fun kv => kv.1 = k)).map (fun kv => kv.2)) = some v
    rw [find?_nodup_keys hwk.1 hkv]
    rfl
  | Json.null, segsPre, _, _, _, e, he => by simp [walkGo] at he
  | Json.bool b, segsPre, _, _, _, e, he => by simp [walkGo] at he
  | Json.num n, segsPre, _, _, _, e, he => by simp [walkGo] at he
  | Json.str s, segsPre, _, _, _, e, he => by simp [walkGo] at he

/-- Array part of `walkGo_resolve`: `xs` is the remaining suffix of the
container's array starting at index `i`. -/
theorem walkGoArr_resolve (root : Json) :
    ∀ (xs : List Json) (i : Nat) (segsPre : List String) (container : Json),
      wellKeyedList xs = true →
      (∀ s ∈ segsPre, cleanKeyB s = true) →
      (∀ suffix, getSegs root (segsPre ++ suffix) = getSegs container suffix) →
      (∀ m x, xs[m]? = some x → childGet container (natToStr (i + m)) = some x) →
      ∀ e ∈ walkGoArr xs i (joinDot segsPre),
        ∃ segs, e.1 = joinDot segs ∧ segs ≠ [] ∧
          (∀ s ∈ segs, cleanKeyB s = true) ∧ getSegs root segs = some e.2.2
  | [], _, _, _, _, _, _, _, e, he => absurd he (by rw [walkGoArr]; simp)
  | x :: rest, i, segsPre, container, hwk, hpre, hloc, hidx, e, he => by
    rw [wellKeyedList, Bool.and_eq_true] at hwk
    have hx0 : childGet container (natToStr i) = some x := by
      have := hidx 0 x (by simp)
      rwa [Nat.add_zero] at this
    have hkclean : cleanKeyB (natToStr i) = true := cleanKeyB_natToStr i
    have hclean2 : ∀ s ∈ segsPre ++ [natToStr i], cleanKeyB s = true := by
      intro s hs
      rcases List.mem_append.mp hs with h1 | h1
      · exact hpre s h1
      · rw [List.mem_singleton.mp h1]
        exact hkclean
    have hext : extendPath (joinDot segsPre) (natToStr i) =
        joinDot (segsPre ++ [natToStr i]) :=
      (joinDot_extendPath segsPre (natToStr i) hpre).symm
    have hloc2 : ∀ suffix, getSegs root ((segsPre ++ [natToStr i]) ++ suffix) =
        getSegs x suffix := by
      intro suffix
      rw [List.append_assoc, hloc, List.singleton_append, getSegs, hx0,
        Option.some_bind]
    rw [walkGoArr] at he
    rcases List.mem_cons.mp he with h1 | h1
    · refine ⟨segsPre ++ [natToStr i], ?_, by simp, hclean2, ?_⟩
      · rw [h1, hext]
      · rw [h1]
        have := hloc2 []
        rw [List.append_nil] at this
        rw [this]
        rfl
    · rcases List.mem_append.mp h1 with h2 | h2
      · rw [hext] at h2
        exact walkGo_resolve root x (segsPre ++ [natToStr i]) hwk.1 hclean2
          hloc2 e h2
      · refine walkGoArr_resolve root rest (i + 1) segsPre container hwk.2 hpre
          hloc ?_ e h2
        intro m x2 hmx
        have := hidx (m + 1) x2 (by simpa using hmx)
        rwa [show i + (m + 1) = i + 1 + m by omega] at this

/-- Object part of `walkGo_resolve`. -/
theorem walkGoObj_resolve (root : Json) :
    ∀ (kvs : List (String × Json)) (segsPre : List String) (container : Json),
      wellKeyedKVs kvs = true →
      (∀ s ∈ segsPre, cleanKeyB s = true) →
      (∀ suffix, getSegs root (segsPre ++ suffix) = getSegs container suffix) →
      (∀ k v, (k, v) ∈ kvs → childGet container k = some v) →
      ∀ e ∈ walkGoObj kvs (joinDot segsPre),
        ∃ segs, e.1 = joinDot segs ∧ segs ≠ [] ∧
          (∀ s ∈ segs, cleanKeyB s = true) ∧ getSegs root segs = some e.2.2
  | [], _, _, _, _, _, _, e, he => absurd he (by rw [walkGoObj]; simp)
  | (k, v) :: rest, segsPre, container, hwk, hpre, hloc, hkey, e, he => by
    rw [wellKeyedKVs, Bool.and_eq_true, Bool.and_eq_true] at hwk
    have hv0 : childGet container k = some v := hkey k v (by simp)
    have hkclean : cleanKeyB k = true := hwk.1.1
    have hclean2 : ∀ s ∈ segsPre ++ [k], cleanKeyB s = true := by
      intro s hs
      rcases List.mem_append.mp hs with h1 | h1
      · exact hpre s h1
      · rw [List.mem_singleton.mp h1]
        exact hkclean
    have hext : extendPath (joinDot segsPre) k = joinDot (segsPre ++ [k]) :=
      (joinDot_extendPath segsPre k hpre).symm
    have hloc2 : ∀ suffix, getSegs root ((segsPre ++ [k]) ++ suffix) =
        getSegs v suffix := by
      intro suffix
      rw [List.append_assoc, hloc, List.singleton_append, getSegs, hv0,
        Option.some_bind]
    rw [walkGoObj] at he
    rcases List.mem_cons.mp he with h1 | h1
    · refine ⟨segsPre ++ [k], ?_, by simp, hclean2, ?_⟩
      · rw [h1, hext]
      · rw [h1]
        have := hloc2 []
        rw [List.append_nil] at this
        rw [this]
        rfl
    · rcases List.mem_append.mp h1 with h2 | h2
      · rw [hext] at h2
        exact walkGo_resolve root v (segsPre ++ [k]) hwk.1.2 hclean2 hloc2 e h2
      · exact walkGoObj_resolve root rest segsPre container hwk.2 hpre hloc
          (fun k2 v2 hk2 => hkey k2 v2 (by simp [hk2])) e h2

end

end JSONProcessor

theorem matchesOf_path_value {lq : String} {e : String × String × Json} {m : Match}
    (hm : m ∈ JSONProcessor.matchesOf lq e) : m.path = e.1 ∧ m.value = e.2.2 := by
  unfold JSONProcessor.matchesOf at hm
  rcases List.mem_append.mp hm with h | h
  · split at h
    · rw [List.mem_singleton.mp h]
      exact ⟨rfl, rfl⟩
    · exact absurd h (by simp)
  · split at h
    · split at h
      · rw [List.mem_singleton.mp h]
        exact ⟨rfl, rfl⟩
      · exact absurd h (by simp)
    · exact absurd h (by simp)

/-- C10 amended: for well-keyed documents — unique object keys (as
`JSON.parse` guarantees) that are nonempty and free of the path
metacharacters `.`, `[`, `]` — every path emitted by the traversals
joins segments with `.` (array indices in decimal: the concrete conjunct
shows `users.0`, not `users[0]`), resolves via `_.get` back to the
visited value, and is never the empty root path; `listAllNodes` emits
exactly the walker's paths, and every `search` record carries a walker
entry's path and value. Keys containing path metacharacters (the
counterexample) are the one exclusion the correction forces. -/
theorem claim_C10_amended_paths (root : Json) (hwk : wellKeyed root = true) :
    (∀ e ∈ JSONProcessor.walkEntries root,
      lodashGet root e.1 = some e.2.2 ∧ e.1 ≠ "") ∧
    ((JSONProcessor.listAllNodes root).map (fun r => r.path) =
      (JSONProcessor.walkEntries root).map (fun e => e.1)) ∧
    (∀ q : String, ∀ m ∈ JSONProcessor.search root q,
      ∃ e ∈ JSONProcessor.walkEntries root, m.path = e.1 ∧ m.value = e.2.2) ∧
    ((JSONProcessor.walkEntries (Json.obj [("users", Json.arr [Json.str "x"])])).map
      (fun e => e.1) = ["users", "users.0"]) := by
  refine ⟨?_, ?_, ?_, by decide⟩
  · intro e he
    have hres := JSONProcessor.walkGo_resolve root root [] hwk (by simp)
      (fun suffix => rfl) e he
    obtain ⟨segs, hpath, hne, hclean, hget⟩ := hres
    constructor
    · show getSegs root (castPath e.1 root) = some e.2.2
      rw [hpath]
      have hcast : castPath (joinDot segs) root = segs := by
        cases segs with
        | nil => exact absurd rfl hne
        | cons s1 rest =>
          cases rest with
          | nil =>
            show castPath (joinDot [s1]) root = [s1]
            exact castPath_single_clean s1 root (hclean s1 (by simp))
          | cons s2 rest2 => exact castPath_joinDot_multi s1 s2 rest2 root hwk hclean
      rw [hcast]
      exact hget
    · rw [hpath]
      exact joinDot_ne_empty segs hne hclean
  · rw [JSONProcessor.listAllNodes_eq_walk, List.map_map]
    rfl
  · intro q m hm
    rw [JSONProcessor.search_eq_walk] at hm
    rw [List.mem_flatMap] at hm
    obtain ⟨e, he, hme⟩ := hm
    exact ⟨e, he, matchesOf_path_value hme⟩

/-- C10 amended witness: on `{"users":["x"]}` (well-keyed), the array
element's emitted path is `users.0` and `_.get` resolves it back to the
value. -/
theorem claim_C10_amended_paths_witness :
    wellKeyed (Json.obj [("users", Json.arr [Json.str "x"])]) = true ∧
      ("users.0", "0", Json.str "x") ∈
        JSONProcessor.walkEntries (Json.obj [("users", Json.arr [Json.str "x"])]) ∧
      lodashGet (Json.obj [("users", Json.arr [Json.str "x"])]) "users.0" =
        some (Json.str "x") ∧
      ("users.0" : String) ≠ "" := by
  have h := claim_C10_amended_paths (Json.obj [("users", Json.arr [Json.str "x"])])
    (by decide)
  have hmem : ("users.0", "0", Json.str "x") ∈
      JSONProcessor.walkEntries (Json.obj [("users", Json.arr [Json.str "x"])]) := by
    decide
  have h2 := h.1 ("users.0", "0", Json.str "x") hmem
  exact ⟨by decide, hmem, h2.1, h2.2⟩
